import Mathlib


/-!
# Verification of the mnmd-anki-sync parser/rewriter pipeline

Shallow embedding of the parts of `mnmd-anki-sync` (Python) that the
specification's testable properties talk about, together with proofs or
refutations of those properties.

Python strings are modelled as `List Char` (called `PyStr` below); Python
`int` is modelled as `Int` where sign matters and as `Nat` where the source
only ever handles non-negative values.  Python functions that can raise are
modelled as `Option`-valued functions.  Character-class predicates
(`str.isdigit`, `str.isalpha`, `int(...)` parsing) are modelled over ASCII;
the repository only ever feeds them ASCII data.
-/

namespace Mnmd


/-- Python string model. -/
abbrev PyStr := List Char

/-! ## Python string builtins -/

/-- Python whitespace for `str.strip()` / `int()` (ASCII model). -/
def pyIsSpace (c : Char) : Bool :=
  c = ' ' || c = '\t' || c = '\n' || c = '\r' || c = '\x0b' || c = '\x0c'

/-- Python `str.strip()`. -/
def pyStrip (s : PyStr) : PyStr :=
  ((s.dropWhile pyIsSpace).reverse.dropWhile pyIsSpace).reverse

/-- Python `s.split(sep)` for a one-character separator: splits at every
occurrence and keeps empty pieces (`"a,,b" → ["a","","b"]`, `"" → [""]`).
The result is never the empty list. -/
def pySplitChar (sep : Char) : PyStr → List PyStr
  | [] => [[]]
  | c :: rest =>
      if c = sep then [] :: pySplitChar sep rest
      else
        match pySplitChar sep rest with
        | [] => [[c]]
        | p :: ps => (c :: p) :: ps

/-- Python `s.split(sep, 1)` for a one-character separator: the piece before
the first occurrence, and the rest after it (`none` when `sep` is absent). -/
def pySplitFirst (sep : Char) : PyStr → PyStr × Option PyStr
  | [] => ([], none)
  | c :: rest =>
      if c = sep then ([], some rest)
      else
        let r := pySplitFirst sep rest
        (c :: r.1, r.2)

/-- Python `str.isdigit` (ASCII model): non-empty and all digits. -/
def pyIsDigit (s : PyStr) : Bool := !s.isEmpty && s.all Char.isDigit

/-- Decimal value of an all-digit string. -/
def digitsToNat (s : PyStr) : Nat := s.foldl (fun a c => a * 10 + (c.toNat - '0'.toNat)) 0

/-- Python `int(s)` (ASCII model): surrounding whitespace, an optional single
sign, then one or more digits; `none` models a raised `ValueError`. -/
def pyInt (s : PyStr) : Option Int :=
  match pyStrip s with
  | '-' :: rest => if pyIsDigit rest then some (-(digitsToNat rest : Int)) else none
  | '+' :: rest => if pyIsDigit rest then some ((digitsToNat rest : Int)) else none
  | t => if pyIsDigit t then some ((digitsToNat t : Int)) else none

/-! ## utils/base52.py -/

/-- `BASE52_CHARS` from `utils/base52.py`: `a-z` followed by `A-Z`. -/
def BASE52_CHARS : PyStr := "abcdefghijklmnopqrstuvwxyzABCDEFGHIJKLMNOPQRSTUVWXYZ".toList

/-- `BASE52_CHARS[num % 52]`, the digit character appended on one loop turn. -/
def base52Digit (n : Nat) : Char := BASE52_CHARS.getD (n % 52) 'a'

/-- The `while num:` loop of `encode_base52`, collecting digit characters
least-significant first.  The loop runs `num //= 52` each turn, so any
`fuel ≥ num` is enough for the fuel never to run out (`encodeLoop_fuel`). -/
def encodeLoop : Nat → Nat → PyStr
  | _, 0 => []
  | 0, _ + 1 => []
  | fuel + 1, n + 1 => base52Digit (n + 1) :: encodeLoop fuel ((n + 1) / 52)

/-- `encode_base52` from `utils/base52.py` (on its intended domain `num ≥ 0`). -/
def encode_base52 (num : Nat) : PyStr :=
  if num = 0 then [BASE52_CHARS.getD 0 'a'] else (encodeLoop num num).reverse

/-- Python `str.isalpha` (ASCII model): non-empty and all letters. -/
def pyIsAlpha (s : PyStr) : Bool := !s.isEmpty && s.all Char.isAlpha

/-- The accumulating loop of `decode_base52`; `none` models the
`ValueError` raised on a character outside the alphabet. -/
def decodeLoop : PyStr → Nat → Option Nat
  | [], acc => some acc
  | c :: rest, acc =>
      if c ∈ BASE52_CHARS then decodeLoop rest (acc * 52 + BASE52_CHARS.indexOf c)
      else none

/-- `decode_base52` from `utils/base52.py`; `none` models a raised `ValueError`. -/
def decode_base52 (s : PyStr) : Option Nat :=
  if pyIsAlpha s then decodeLoop s 0 else none

/-- The `while num:` loop of `encode_base52` run under full Python `int`
semantics, i.e. on arbitrary-sign integers: `num //= 52` is flooring
division (`Int.fdiv`) and `BASE52_CHARS[num % 52]` uses Python `%`
(`Int.emod`, always in `[0, 52)` here).  `none` means the given number of
iterations did not finish the loop. -/
def encodeLoopInt : Nat → Int → Option PyStr
  | 0, num => if num = 0 then some [] else none
  | fuel + 1, num =>
      if num = 0 then some []
      else (encodeLoopInt fuel (num.fdiv 52)).map
        (fun l => BASE52_CHARS.getD (num.emod 52).toNat 'a' :: l)

/-! ## models.py: ScopeSpec -/

/-- `ScopeSpec` from `models.py`. -/
structure ScopeSpec where
  before : Int
  after : Int
deriving DecidableEq, Repr

/-- Constructing a `ScopeSpec` in `models.py` runs the two pydantic field
validators: `before > 0` is auto-corrected to `-before` and `after < 0` to
`-after`.  Every construction site of the Python class goes through them. -/
def ScopeSpec.make (b a : Int) : ScopeSpec :=
  ⟨if b > 0 then -b else b, if a < 0 then -a else a⟩

/-- `ScopeSpec.default()`: current paragraph only. -/
def ScopeSpec.dfault : ScopeSpec := ScopeSpec.make 0 0

/-- `ScopeSpec.list_default()`: include the paragraph before. -/
def ScopeSpec.list_dfault : ScopeSpec := ScopeSpec.make (-1) 0

/-! ## parser/cloze_parser.py: parse_scope and parse_cloze_ids -/

/-- `parse_scope` from `cloze_parser.py`.  `none` models `scope_str = None`;
the guard `if not scope_str` is also taken for the empty string.  Python's
`len(parts) == 1` test is mirrored literally; in the two-part branch a
`ValueError` from either `int()` falls through to the default. -/
def parse_scope (scope_str : Option PyStr) (in_list : Bool) : ScopeSpec :=
  let dflt := if in_list then ScopeSpec.list_dfault else ScopeSpec.dfault
  match scope_str with
  | none => dflt
  | some s =>
      if s = [] then dflt
      else
        let parts := (pySplitChar ',' s).map pyStrip
        if parts.length = 1 then
          match pyInt (parts.getD 0 []) with
          | none => dflt
          | some v => if v < 0 then ScopeSpec.make v 0 else ScopeSpec.make 0 v
        else
          match pyInt (parts.getD 0 []), pyInt (parts.getD 1 []) with
          | some b, some a => ScopeSpec.make b a
          | _, _ => dflt

/-- Whether the `int()` conversions taken by `parse_scope` all succeed,
i.e. whether the scope string is well-formed rather than "malformed". -/
def scopeWellFormed (s : PyStr) : Bool :=
  let parts := (pySplitChar ',' s).map pyStrip
  if parts.length = 1 then (pyInt (parts.getD 0 [])).isSome
  else (pyInt (parts.getD 0 [])).isSome && (pyInt (parts.getD 1 [])).isSome

/-- The `(cloze_id, sequence_order, anki_id)` result of `parse_cloze_ids`. -/
structure IdsTriple where
  cloze_id : Option PyStr
  sequence_order : Option Int
  anki_id : Option PyStr
deriving DecidableEq, Repr

/-- One turn of the `for part in parts` loop of `parse_cloze_ids`: a part
containing `.` splits at the first `.`, assigns `cloze_id` and then tries
`int()` on the remainder, resetting `sequence_order` to `None` on failure;
otherwise an all-digit part assigns `cloze_id`, an all-letter part assigns
`anki_id`, and anything else is ignored. -/
def applyIdPart (st : IdsTriple) (part : PyStr) : IdsTriple :=
  if part.contains '.' then
    let sp := pySplitFirst '.' part
    match pyInt (pyStrip (sp.2.getD [])) with
    | some v => { st with cloze_id := some (pyStrip sp.1), sequence_order := some v }
    | none => { st with cloze_id := some (pyStrip sp.1), sequence_order := none }
  else if pyIsDigit part then { st with cloze_id := some part }
  else if pyIsAlpha part then { st with anki_id := some part }
  else st

/-- `parse_cloze_ids` from `cloze_parser.py`. -/
def parse_cloze_ids (ids_str : PyStr) : IdsTriple :=
  if ids_str = [] then ⟨none, none, none⟩
  else ((pySplitChar ',' ids_str).map pyStrip).foldl applyIdPart ⟨none, none, none⟩

/-- The per-part update rule as the amended claim words it: a part containing
`.` splits at the first `.`; the (stripped) text before the dot becomes
`cloze_id` whatever it is, and `sequence_order` becomes the Python-`int`
parse of the text after the dot, cleared to `None` when that parse fails.
A dot-free all-digit part sets `cloze_id`; a dot-free all-letter part sets
`anki_id`; any other dot-free part changes nothing. -/
def idPartRuleSpec (st : IdsTriple) (part : PyStr) : IdsTriple :=
  if part.contains '.' then
    { st with cloze_id := some (pyStrip (pySplitFirst '.' part).1),
              sequence_order := pyInt (pyStrip ((pySplitFirst '.' part).2.getD [])) }
  else if pyIsDigit part then { st with cloze_id := some part }
  else if pyIsAlpha part then { st with anki_id := some part }
  else st

/-! ## parser/cloze_parser.py: scanning, content parsing, parse_clozes -/

/-- The scanning loop of `find_closing_braces`: `rest` is the unscanned
suffix of the text, `i` its absolute start index, `depth` the running brace
count (`{` is +1, `}` is -1, Python `int`, so it may go negative). -/
def fcbAux : List Char → Nat → Int → Option Nat
  | [], _, _ => none
  | c :: rest, i, depth =>
      if c = '{' then fcbAux rest (i + 1) (depth + 1)
      else if c = '}' then
        if depth - 1 = 1 ∧ rest.head? = some '}' then some i
        else fcbAux rest (i + 1) (depth - 1)
      else fcbAux rest (i + 1) depth

/-- `find_closing_braces` from `cloze_parser.py`. -/
def find_closing_braces (text : PyStr) (start : Nat) : Option Nat :=
  fcbAux (text.drop start) start 0

/-- Contribution of one character to the running brace depth. -/
def braceDelta (c : Char) : Int := if c = '{' then 1 else if c = '}' then -1 else 0

/-- Net brace depth of the first `k` characters of `l`. -/
def depthUpTo (l : PyStr) (k : Nat) : Int := ((l.take k).map braceDelta).sum

/-- The closing condition of the scan, at offset `k` into the scanned
suffix `l`, with initial depth `d`: the character is `}`, the next one is
also `}`, and the depth after consuming this `}` is exactly 1 (so the `}`
that would reach 0 is the second of the pair). -/
def isCloseAt (l : PyStr) (k : Nat) (d : Int) : Prop :=
  l.get? k = some '}' ∧ l.get? (k + 1) = some '}' ∧ d + depthUpTo l (k + 1) = 1

instance (l : PyStr) (k : Nat) (d : Int) : Decidable (isCloseAt l k d) := by
  unfold isCloseAt; infer_instance

/-- Placeholder `"\x00PARA\x00"` used by `normalize_whitespace`. -/
def PARA : PyStr := ['\x00', 'P', 'A', 'R', 'A', '\x00']

/-- `re.sub(r"\n\x7b2,\x7d", "\x00PARA\x00", text)`: every maximal run of
two or more newlines becomes the placeholder.  Each step consumes at least
one character, so `fuel = s.length` never runs out. -/
def collapseNLGo : Nat → PyStr → PyStr
  | _, [] => []
  | 0, rest => rest
  | fuel + 1, c :: rest =>
      if c = '\n' ∧ rest.head? = some '\n' then
        PARA ++ collapseNLGo fuel (rest.dropWhile (· = '\n'))
      else c :: collapseNLGo fuel rest

/-- `re.sub(" \x7b2,\x7d", " ", s)`: every maximal run of two or more
spaces becomes one space. -/
def collapseSpGo : Nat → PyStr → PyStr
  | _, [] => []
  | 0, rest => rest
  | fuel + 1, c :: rest =>
      if c = ' ' ∧ rest.head? = some ' ' then
        ' ' :: collapseSpGo fuel (rest.dropWhile (· = ' '))
      else c :: collapseSpGo fuel rest

/-- `s.replace("\x00PARA\x00", "\n\n")`, left to right, non-overlapping. -/
def restoreParaGo : Nat → PyStr → PyStr
  | _, [] => []
  | 0, rest => rest
  | fuel + 1, c :: rest =>
      if (c :: rest).take 6 = PARA then
        '\n' :: '\n' :: restoreParaGo fuel ((c :: rest).drop 6)
      else c :: restoreParaGo fuel rest

/-- `normalize_whitespace` from `cloze_parser.py`: protect paragraph breaks,
turn remaining single newlines into spaces, restore paragraph breaks,
collapse space runs. -/
def normalize_whitespace (text : PyStr) : PyStr :=
  let step1 := collapseNLGo text.length text
  let step2 := step1.map (fun c => if c = '\n' then ' ' else c)
  let step3 := restoreParaGo step2.length step2
  collapseSpGo step3.length step3

/-- `parse_content` from `cloze_parser.py`: normalize whitespace, split off
`extra` at the first `<`, split off `hint` at the first `|`, strip all
three; a falsy (absent or empty) `hint`/`extra` becomes `None`. -/
def parse_content (content_str : PyStr) : PyStr × Option PyStr × Option PyStr :=
  let content := normalize_whitespace content_str
  let withExtra :=
    if content.contains '<' then
      ((pySplitFirst '<' content).1, some ((pySplitFirst '<' content).2.getD []))
    else (content, none)
  let withHint :=
    if withExtra.1.contains '|' then
      ((pySplitFirst '|' withExtra.1).1, some ((pySplitFirst '|' withExtra.1).2.getD []))
    else (withExtra.1, none)
  (pyStrip withHint.1,
   match withHint.2 with
   | some h => if h = [] then none else some (pyStrip h)
   | none => none,
   match withExtra.2 with
   | some e => if e = [] then none else some (pyStrip e)
   | none => none)

/-- One optionally-signed run of digits (`-?\d+`, greedy), returning the
matched text and the rest. -/
def takeSignedDigits : PyStr → Option (PyStr × PyStr)
  | '-' :: rest =>
      let ds := rest.takeWhile Char.isDigit
      if ds = [] then none else some ('-' :: ds, rest.drop ds.length)
  | s =>
      let ds := s.takeWhile Char.isDigit
      if ds = [] then none else some (ds, s.drop ds.length)

/-- `re.match(r"\[(-?\d+(?:,\s*-?\d+)?)\]", s)`: returns the text of
group 1 and the length of the whole match.  The optional second number is
kept only when a `]` follows it; if it is present but unusable the regex
backtracks to requiring `]` directly after the first number, which then
fails on the `,`. -/
def matchScopeSuffix (s : PyStr) : Option (PyStr × Nat) :=
  match s with
  | '[' :: r0 =>
      match takeSignedDigits r0 with
      | none => none
      | some (n1, r1) =>
          match r1 with
          | ',' :: r2 =>
              let ws := r2.takeWhile pyIsSpace
              (match takeSignedDigits (r2.drop ws.length) with
               | some (n2, r3) =>
                   match r3 with
                   | ']' :: _ =>
                       let g := n1 ++ ',' :: (ws ++ n2)
                       some (g, g.length + 2)
                   | _ => none
               | none => none)
          | ']' :: _ => some (n1, n1.length + 2)
          | _ => none
  | _ => none

/-- `ClozeType` from `models.py`. -/
inductive ClozeType | BASIC | GROUPED | SEQUENCE
deriving DecidableEq, Repr

/-- `ClozeMatch` from `models.py`.  The field `end` is written `«end»`.
The `validate_anki_id` pydantic validator never fires on parser output
(`anki_id` is only ever set from an `isalpha()` part), so it is not
modelled. -/
structure ClozeMatch where
  full_text : PyStr
  start : Nat
  «end» : Nat
  cloze_id : Option PyStr
  sequence_order : Option Int
  anki_id : Option PyStr
  answer : PyStr
  hint : Option PyStr
  extra : Option PyStr
  scope : ScopeSpec
  cloze_type : ClozeType
  line_number : Nat
deriving DecidableEq, Repr

/-- The `while i < len(text) - 1` loop of `parse_clozes`.  `i` strictly
increases on every path, so `fuel = text.length + 1` never runs out. -/
def parseClozesAux (text : PyStr) (start_line : Nat) (in_list : Bool) :
    Nat → Nat → List ClozeMatch
  | 0, _ => []
  | fuel + 1, i =>
      if i + 1 < text.length then
        if (text.drop i).take 2 = ['{', '{'] then
          match find_closing_braces text i with
          | none => parseClozesAux text start_line in_list fuel (i + 1)
          | some end_pos =>
              let content_with_ids := (text.drop (i + 2)).take (end_pos - (i + 2))
              let scm := matchScopeSuffix (text.drop (end_pos + 2))
              let scope_end :=
                match scm with
                | some sm => end_pos + 2 + sm.2
                | none => end_pos + 2
              let scope_str := (scm.map (·.1))
              let full_text := (text.drop i).take (scope_end - i)
              let idsContent :=
                if content_with_ids.contains '>' then
                  (some (pySplitFirst '>' content_with_ids).1,
                   (pySplitFirst '>' content_with_ids).2.getD [])
                else (none, content_with_ids)
              let parsed := parse_content idsContent.2
              if parsed.1 = [] then
                parseClozesAux text start_line in_list fuel scope_end
              else
                let ids := parse_cloze_ids (idsContent.1.getD [])
                let cloze_type :=
                  if ids.sequence_order.isSome then ClozeType.SEQUENCE
                  else if ids.cloze_id.isSome then ClozeType.GROUPED
                  else ClozeType.BASIC
                { full_text := full_text
                  start := i
                  «end» := scope_end
                  cloze_id := ids.cloze_id
                  sequence_order := ids.sequence_order
                  anki_id := ids.anki_id
                  answer := parsed.1
                  hint := parsed.2.1
                  extra := parsed.2.2
                  scope := parse_scope scope_str in_list
                  cloze_type := cloze_type
                  line_number := start_line + (text.take i).count '\n' } ::
                  parseClozesAux text start_line in_list fuel scope_end
        else parseClozesAux text start_line in_list fuel (i + 1)
      else []

/-- `parse_clozes` from `cloze_parser.py`. -/
def parse_clozes (text : PyStr) (start_line : Nat) (in_list : Bool) : List ClozeMatch :=
  parseClozesAux text start_line in_list (text.length + 1) 0

/-! ## models.py: ClozeGroup, CardContext, Prompt -/

/-- `ClozeGroup` from `models.py`. -/
structure ClozeGroup where
  group_id : PyStr
  clozes : List ClozeMatch
  is_sequence : Bool
deriving DecidableEq, Repr

/-- Python `c.sequence_order or 0`, the sort key of `get_sequence_clozes`
(`None` and `0` both give `0`). -/
def seqKey (c : ClozeMatch) : Int := c.sequence_order.getD 0

/-- `ClozeGroup.get_sequence_clozes` from `models.py`: the member list,
sorted stably and ascending by `sequence_order or 0` when the group is a
sequence (Python `sorted` is stable; `List.insertionSort` with `≤` on the
key is the same stable ascending sort). -/
def ClozeGroup.get_sequence_clozes (g : ClozeGroup) : List ClozeMatch :=
  if !g.is_sequence then g.clozes
  else List.insertionSort (fun a b => seqKey a ≤ seqKey b) g.clozes

/-- `CardContext` from `models.py` (the fields the prompt generator reads). -/
structure CardContext where
  content : PyStr
  cloze_matches : List ClozeMatch
deriving DecidableEq, Repr

/-- `Prompt` from `models.py` (the fields the prompt generator sets;
`deck_name` and `tags` are overwritten by the syncer before use and carry
no information here). -/
structure Prompt where
  cloze_match : ClozeMatch
  context : PyStr
  anki_id : Option PyStr
  file_path : PyStr
  line_number : Nat
  group_clozes : Option (List ClozeMatch)
deriving DecidableEq, Repr

/-! ## parser/prompt_generator.py -/

/-- Synthetic dictionary key `f"_individual_\x7bcounter\x7d"`. -/
def individualKey (n : Nat) : PyStr := "_individual_".toList ++ Nat.toDigits 10 n

/-- Ordered-dictionary model of a Python `dict`: lookup by key. -/
def alistGet (k : PyStr) (l : List (PyStr × ClozeGroup)) : Option ClozeGroup :=
  (l.find? (fun p => p.1 = k)).map (·.2)

/-- `k in groups`. -/
def alistHas (k : PyStr) (l : List (PyStr × ClozeGroup)) : Bool :=
  l.any (fun p => p.1 = k)

/-- `groups[k] = v`: overwrite in place, or append preserving insertion
order. -/
def alistSet (k : PyStr) (v : ClozeGroup) : List (PyStr × ClozeGroup) →
    List (PyStr × ClozeGroup)
  | [] => [(k, v)]
  | (k', v') :: rest => if k' = k then (k, v) :: rest else (k', v') :: alistSet k v rest

/-- In-place mutation of the group stored under `k`
(`groups[k].clozes.append(...)`). -/
def alistUpdate (k : PyStr) (f : ClozeGroup → ClozeGroup) : List (PyStr × ClozeGroup) →
    List (PyStr × ClozeGroup)
  | [] => []
  | (k', v) :: rest =>
      if k' = k then (k', f v) :: rest else (k', v) :: alistUpdate k f rest

/-- The `for cloze in clozes` loop of `_group_clozes`.  A truthy `cloze_id`
joins (or creates, with `is_sequence` decided by this first member) the
group under that key; otherwise the cloze becomes a fresh singleton
non-sequence group under a synthetic key. -/
def groupClozesLoop : List ClozeMatch → List (PyStr × ClozeGroup) → Nat →
    List (PyStr × ClozeGroup)
  | [], groups, _ => groups
  | cloze :: rest, groups, counter =>
      match cloze.cloze_id with
      | some cid =>
          if cid ≠ [] then
            let groups' :=
              if alistHas cid groups then groups
              else alistSet cid ⟨cid, [], cloze.cloze_type == ClozeType.SEQUENCE⟩ groups
            groupClozesLoop rest
              (alistUpdate cid (fun g => { g with clozes := g.clozes ++ [cloze] }) groups')
              counter
          else
            groupClozesLoop rest
              (alistSet (individualKey counter) ⟨individualKey counter, [cloze], false⟩ groups)
              (counter + 1)
      | none =>
          groupClozesLoop rest
            (alistSet (individualKey counter) ⟨individualKey counter, [cloze], false⟩ groups)
            (counter + 1)

/-- `_group_clozes` from `prompt_generator.py`. -/
def _group_clozes (clozes : List ClozeMatch) : List (PyStr × ClozeGroup) :=
  groupClozesLoop clozes [] 0

/-- `sorted(context.cloze_matches, key=lambda c: c.start, reverse=True)`:
stable descending sort by `start`. -/
def sortedRevByStart (l : List ClozeMatch) : List ClozeMatch :=
  List.insertionSort (fun a b => b.start ≤ a.start) l

/-- `context_text[: a] + repl + context_text[b :]`. -/
def spliceAt (s : PyStr) (a b : Nat) (repl : PyStr) : PyStr :=
  s.take a ++ repl ++ s.drop b

/-- Replacement chosen by the masking loop of `_generate_sequence_prompts`
for one context cloze, when the member at index `i` of `sorted_clozes` is
the target: the target itself → `__CLOZE__`; a member already revealed
(in `sorted_clozes[:i]`) → its answer; a member not yet revealed (in
`sorted_clozes[i+1:]`) → `"..."`; anything else → its answer. -/
def seqReplacement (sorted_clozes : List ClozeMatch) (i : Nat) (target : ClozeMatch)
    (cloze : ClozeMatch) : PyStr :=
  if cloze = target then "__CLOZE__".toList
  else if cloze ∈ sorted_clozes.take i then cloze.answer
  else if cloze ∈ sorted_clozes.drop (i + 1) then "...".toList
  else cloze.answer

/-- The masked context built by `_generate_sequence_prompts` for the member
at index `i`: splice every context cloze in reverse `start` order. -/
def seqContextFor (ctx : CardContext) (sorted_clozes : List ClozeMatch) (i : Nat)
    (target : ClozeMatch) : PyStr :=
  (sortedRevByStart ctx.cloze_matches).foldl
    (fun text cloze =>
      spliceAt text cloze.start cloze.«end» (seqReplacement sorted_clozes i target cloze))
    ctx.content

/-- `_generate_sequence_prompts` from `prompt_generator.py`.  The only call
chain in the program (`Syncer.sync_file` → `generate_prompts(context,
file_path)`) passes `full_document = None`, so `needs_scope_resolution` is
always false; that branch is the one modelled.  `group_clozes` is not
passed to `Prompt`, so it keeps its default `None`. -/
def _generate_sequence_prompts (group : ClozeGroup) (ctx : CardContext)
    (file_path : PyStr) : List Prompt :=
  group.get_sequence_clozes.enum.map (fun p =>
    { cloze_match := p.2
      context := seqContextFor ctx group.get_sequence_clozes p.1 p.2
      anki_id := p.2.anki_id
      file_path := file_path
      line_number := p.2.line_number
      group_clozes := none })

/-- A grouped cloze `\x7b\x7b1>a\x7d\x7d` (group `1`, no sequence order),
appearing first in source order. -/
def grpCloze : ClozeMatch :=
  { full_text := "\x7b\x7b1>a\x7d\x7d".toList
    start := 0
    «end» := 8
    cloze_id := some ['1']
    sequence_order := none
    anki_id := none
    answer := ['a']
    hint := none
    extra := none
    scope := ScopeSpec.dfault
    cloze_type := ClozeType.GROUPED
    line_number := 0 }

/-- A sequence cloze `\x7b\x7b1.1>b\x7d\x7d` of the same group, appearing
second. -/
def seqCloze : ClozeMatch :=
  { full_text := "\x7b\x7b1.1>b\x7d\x7d".toList
    start := 9
    «end» := 19
    cloze_id := some ['1']
    sequence_order := some 1
    anki_id := none
    answer := ['b']
    hint := none
    extra := none
    scope := ScopeSpec.dfault
    cloze_type := ClozeType.SEQUENCE
    line_number := 0 }

/-! ### C3: sequence prompt masking -/

/-- The masking table of the spec, stated by *position in the sequence
order*: the member at index `i` is the target → `__CLOZE__`; members
earlier in the order → their answer; members later in the order → `"..."`;
clozes of a different group → their answer. -/
def maskTableSpec (sorted : List ClozeMatch) (i : Nat) (cloze : ClozeMatch) : PyStr :=
  if cloze ∈ sorted then
    (if sorted.indexOf cloze = i then "__CLOZE__".toList
     else if sorted.indexOf cloze < i then cloze.answer
     else "...".toList)
  else cloze.answer

/-- The spec-side masked context: same reverse-`byte_start` splicing, with
the replacement chosen by the table. -/
def maskedContextSpec (ctx : CardContext) (sorted : List ClozeMatch) (i : Nat) : PyStr :=
  (sortedRevByStart ctx.cloze_matches).foldl
    (fun text cloze => spliceAt text cloze.start cloze.«end» (maskTableSpec sorted i cloze))
    ctx.content

instance : IsTotal ClozeMatch (fun a b => seqKey a ≤ seqKey b) :=
  ⟨fun _ _ => le_total _ _⟩

instance : IsTrans ClozeMatch (fun a b => seqKey a ≤ seqKey b) :=
  ⟨fun _ _ _ h1 h2 => le_trans h1 h2⟩

/-- Concrete sequence demo: `\x7b\x7b1.1>a\x7d\x7d \x7b\x7b1.2>b\x7d\x7d
\x7b\x7b1.3>c\x7d\x7d`. -/
def seqDemoText : PyStr :=
  "\x7b\x7b1.1>a\x7d\x7d \x7b\x7b1.2>b\x7d\x7d \x7b\x7b1.3>c\x7d\x7d".toList

def seqDemoClozes : List ClozeMatch := parse_clozes seqDemoText 0 false

def seqDemoCtx : CardContext := ⟨seqDemoText, seqDemoClozes⟩

def seqDemoGroup : ClozeGroup := ⟨['1'], seqDemoClozes, true⟩

/-! ## sync/id_writer.py -/

/-- Python `sub in s` (substring test). -/
def isSubstringOf (sub : PyStr) : PyStr → Bool
  | [] => sub.isEmpty
  | c :: rest => sub.isPrefixOf (c :: rest) || isSubstringOf sub rest

/-- `s.replace(old, new)` for non-empty `old`: replace every non-overlapping
occurrence, left to right.  Each step consumes at least one character, so
`fuel = s.length` never runs out.  (Python's empty-`old` behaviour is not
modelled; the only caller passes `"\x7b\x7b"`.) -/
def replaceAllGo (old new : PyStr) : Nat → PyStr → PyStr
  | _, [] => []
  | 0, s => s
  | fuel + 1, c :: rest =>
      if old ≠ [] ∧ old.isPrefixOf (c :: rest) then
        new ++ replaceAllGo old new fuel ((c :: rest).drop old.length)
      else c :: replaceAllGo old new fuel rest

def pyReplaceAll (s old new : PyStr) : PyStr := replaceAllGo old new s.length s

/-- Index scan behind `s.replace(old, new, 1)`: `i` is the absolute index of
the head of the scanned suffix. -/
def firstOccAux (old : PyStr) : PyStr → Nat → Option Nat
  | [], i => if old.isEmpty then some i else none
  | c :: rest, i =>
      if old.isPrefixOf (c :: rest) then some i else firstOccAux old rest (i + 1)

/-- Index of the first occurrence of `old` in `s`, if any. -/
def firstOccIdx (old s : PyStr) : Option Nat := firstOccAux old s 0

/-- Python `s.replace(old, new, 1)`: splice `new` over the first occurrence
of `old`; `s` unchanged when `old` does not occur. -/
def replaceFirst (s old new : PyStr) : PyStr :=
  match firstOccIdx old s with
  | none => s
  | some p => s.take p ++ new ++ s.drop (p + old.length)

/-- Python `str(n)` for an `int`. -/
def intToChars (n : Int) : PyStr :=
  if n < 0 then '-' :: Nat.toDigits 10 n.natAbs else Nat.toDigits 10 n.toNat

/-- The lazy `(.+?)\}\}` tail of the id_writer regex: the least `j ≥ 1`
such that `\x7d\x7d` stands at offset `j`. -/
def findDoubleCloseAux : PyStr → Nat → Option Nat
  | [], _ => none
  | c :: rest, j =>
      if c = '}' ∧ rest.head? = some '}' then some j
      else findDoubleCloseAux rest (j + 1)

def findDoubleClose : PyStr → Option Nat
  | [] => none
  | _ :: rest => findDoubleCloseAux rest 1

/-- `re.match(r"\\\x7b\\\x7b(?:[^>]+>)?(.+?)\\\x7d\\\x7d", old_text,
re.DOTALL)`, returning group 1.  The greedy `[^>]+>` can only consume up to
the first `>` (and needs at least one character before it); if the rest of
the pattern cannot complete after it, the regex backtracks to not taking
the optional group at all. -/
def contentPartOf (old_text : PyStr) : Option PyStr :=
  if ['{', '{'].isPrefixOf old_text then
    let r0 := old_text.drop 2
    let attempt2 := (findDoubleClose r0).map (fun j => r0.take j)
    if r0.contains '>' ∧ (pySplitFirst '>' r0).1 ≠ [] then
      let r1 := (pySplitFirst '>' r0).2.getD []
      match findDoubleClose r1 with
      | some j => some (r1.take j)
      | none => attempt2
    else attempt2
  else none

/-- `re.search(r"\\\x7d\\\x7d(\[-?\d+(?:,\s*-?\d+)?\])$", old_text)`,
returning group 1: the bracketed scope suffix, when `old_text` ends in
`\x7d\x7d` immediately followed by a scope suffix that runs to the end. -/
def searchScopeSuffix : PyStr → Option PyStr
  | [] => none
  | c :: rest =>
      if c = '}' ∧ rest.head? = some '}' then
        let t := rest.drop 1
        match matchScopeSuffix t with
        | some sm => if sm.2 = t.length then some t else searchScopeSuffix rest
        | none => searchScopeSuffix rest
      else searchScopeSuffix rest

/-- The per-cloze body of the update-building loop of `write_ids_to_file`:
`none` when the cloze is skipped (falsy `anki_id`, id already written, or
no regex match), otherwise the `(position, old_text, new_text)` update. -/
def clozeUpdate (cloze : ClozeMatch) : Option (Nat × PyStr × PyStr) :=
  match cloze.anki_id with
  | none => none
  | some aid =>
      if aid = [] then none
      else
        let skip :=
          if cloze.full_text.contains '>' then
            isSubstringOf aid
              (pyReplaceAll (pySplitFirst '>' cloze.full_text).1 ['{', '{'] [])
          else
            (('{' :: '{' :: (aid ++ ['>'])).isPrefixOf cloze.full_text)
        if skip then none
        else
          let new_ids :=
            match cloze.cloze_id with
            | some cid =>
                if cid ≠ [] then
                  match cloze.sequence_order with
                  | some so => cid ++ '.' :: (intToChars so ++ ',' :: aid)
                  | none => cid ++ ',' :: aid
                else aid
            | none => aid
          match contentPartOf cloze.full_text with
          | none => none
          | some content_part =>
              let new_text :=
                '{' :: '{' :: (new_ids ++ '>' :: (content_part ++ ['}', '}']))
              let new_text :=
                match searchScopeSuffix cloze.full_text with
                | some b => new_text ++ b
                | none => new_text
              some (cloze.start, cloze.full_text, new_text)

/-- `prompt.group_clozes if prompt.group_clozes else [prompt.cloze_match]`
(an empty list is falsy). -/
def clozesToUpdate (p : Prompt) : List ClozeMatch :=
  match p.group_clozes with
  | some l => if l ≠ [] then l else [p.cloze_match]
  | none => [p.cloze_match]

/-- The update list built by `write_ids_to_file`, in iteration order. -/
def buildUpdates (prompts : List Prompt) : List (Nat × PyStr × PyStr) :=
  (prompts.flatMap clozesToUpdate).filterMap clozeUpdate

/-- `updates.sort(key=lambda x: x[0], reverse=True)`: stable descending by
position. -/
def sortUpdatesDesc (l : List (Nat × PyStr × PyStr)) : List (Nat × PyStr × PyStr) :=
  List.insertionSort (fun a b => b.1 ≤ a.1) l

/-- The pure content transformation of `write_ids_to_file`: build updates;
if none, the file is left untouched; otherwise apply each update as a
single-occurrence `str.replace` on the evolving contents, in descending
position order.  (File I/O — temp file plus atomic rename — is not
modelled; this is the content function.) -/
def write_ids_content (content : PyStr) (prompts : List Prompt) : PyStr :=
  let updates := buildUpdates prompts
  if updates = [] then content
  else (sortUpdatesDesc updates).foldl
    (fun acc u => replaceFirst acc u.2.1 u.2.2) content

/-- Nested-brace demo content `\x7b\x7bx\x7b\x7ba\x7d\x7dx\x7d\x7d
\x7b\x7ba\x7d\x7d`: the text of the second cloze also occurs, earlier,
inside the first cloze. -/
def demo5content : PyStr :=
  "\x7b\x7bx\x7b\x7ba\x7d\x7dx\x7d\x7d \x7b\x7ba\x7d\x7d".toList

/-- The second cloze of `demo5content` (at byte 12), freshly assigned
code `b`. -/
def demo5cloze : ClozeMatch :=
  { full_text := "\x7b\x7ba\x7d\x7d".toList
    start := 12
    «end» := 17
    cloze_id := none
    sequence_order := none
    anki_id := some ['b']
    answer := ['a']
    hint := none
    extra := none
    scope := ScopeSpec.dfault
    cloze_type := ClozeType.BASIC
    line_number := 0 }

def demo5prompt : Prompt := ⟨demo5cloze, [], some ['b'], [], 0, none⟩

/-- Two clozes `\x7b\x7ba\x7d\x7d \x7b\x7bc\x7d\x7d`, with fresh codes `b`
and `d`. -/
def w5content : PyStr := "\x7b\x7ba\x7d\x7d \x7b\x7bc\x7d\x7d".toList

def w5cloze1 : ClozeMatch :=
  { demo5cloze with full_text := "\x7b\x7ba\x7d\x7d".toList, start := 0, «end» := 5 }

def w5cloze2 : ClozeMatch :=
  { demo5cloze with
    full_text := "\x7b\x7bc\x7d\x7d".toList
    start := 6
    «end» := 11
    anki_id := some ['d']
    answer := ['c'] }

def w5prompt1 : Prompt := ⟨w5cloze1, [], some ['b'], [], 0, none⟩

def w5prompt2 : Prompt := ⟨w5cloze2, [], some ['d'], [], 0, none⟩

/-! ## sync/syncer.py: the operation trace of Syncer.sync_file -/

/-- One observable operation of `Syncer.sync_file`, in program order. -/
inductive SyncEvent
  | ensureNoteType   -- `ensure_note_type_exists` (remote: model ops)
  | ensureFileId     -- `ensure_file_id` (local front-matter fix-up)
  | readFile         -- local source read
  | notesInfo        -- remote, per-note
  | updateNoteFields -- remote, per-note
  | addTags          -- remote, per-note
  | addNote          -- remote, per-note
  | findNotes        -- remote: orphan enumeration
  | deleteNotes      -- remote: orphan deletion
  | writeIds         -- `write_ids_to_file` (source rewrite)
deriving DecidableEq, Repr

/-- Remote (AnkiConnect) calls. -/
def SyncEvent.isRemote : SyncEvent → Bool
  | .ensureNoteType | .notesInfo | .updateNoteFields | .addTags | .addNote
  | .findNotes | .deleteNotes => true
  | _ => false

/-- Per-note remote calls (the prompt create/update operations). -/
def SyncEvent.isPerNote : SyncEvent → Bool
  | .notesInfo | .updateNoteFields | .addTags | .addNote => true
  | _ => false

/-- Responses of the study application, abstracted: whether a decoded note
id exists remotely, the id returned by the `n`-th `add_note` call, whether
that call succeeds, the result of the tag query, and whether the tag query
itself succeeds. -/
structure RemoteOracle where
  noteExists : Nat → Bool
  createdId : Nat → Nat
  createOk : Nat → Bool
  fileNoteIds : List Nat
  findOk : Bool

/-- The per-prompt body of the sync loop: decode the stored code (a falsy
`anki_id` or a `ValueError` falls through to create); on a decodable code,
query `notes_info` and, when the note exists, update fields and tags;
otherwise create.  Returns the events, the new `add_note` call count, and
the accumulated set of seen note ids. -/
def syncPromptStep (oracle : RemoteOracle) (p : Prompt) (createCount : Nat)
    (seen : List Nat) : List SyncEvent × Nat × List Nat :=
  match (match p.anki_id with
         | some aid => if aid ≠ [] then decode_base52 aid else none
         | none => none) with
  | some nid =>
      if oracle.noteExists nid then
        ([.notesInfo, .updateNoteFields, .addTags], createCount, seen ++ [nid])
      else
        ([.notesInfo, .addNote], createCount + 1,
          seen ++ (if oracle.createOk createCount then [oracle.createdId createCount] else []))
  | none =>
      ([.addNote], createCount + 1,
        seen ++ (if oracle.createOk createCount then [oracle.createdId createCount] else []))

def syncPromptLoop (oracle : RemoteOracle) : List Prompt → Nat → List Nat →
    List SyncEvent × List Nat
  | [], _, seen => ([], seen)
  | p :: rest, cc, seen =>
      let step := syncPromptStep oracle p cc seen
      let tail := syncPromptLoop oracle rest step.2.1 step.2.2
      (step.1 ++ tail.1, tail.2)

/-- The operation trace of `Syncer.sync_file`: note-type ensure, file-id
fix-up, source read; early return when no contexts or no prompts; else the
per-prompt operations, the best-effort orphan sweep (`find_notes`, then
`delete_notes` when the query succeeded and orphans exist), and the source
rewrite last. -/
def sync_file_trace (oracle : RemoteOracle) (contextsEmpty : Bool)
    (prompts : List Prompt) : List SyncEvent :=
  [.ensureNoteType, .ensureFileId, .readFile] ++
    (if contextsEmpty then []
     else if prompts = [] then []
     else
       let run := syncPromptLoop oracle prompts 0 []
       let orphaned := oracle.fileNoteIds.filter (fun nid => ¬ (nid ∈ run.2))
       run.1 ++ [.findNotes] ++
         (if oracle.findOk ∧ orphaned ≠ [] then [.deleteNotes] else []) ++
         [.writeIds])

/-- A trivial oracle and prompt for the concrete C8 trace. -/
def demo8oracle : RemoteOracle := ⟨fun _ => false, fun _ => 7, fun _ => true, [], true⟩

def demo8prompt : Prompt := ⟨grpCloze, [], none, [], 0, none⟩

/-! ## config.py: build_source_link; anki/note_builder.py: the Source field -/

/-- `EditorProtocol` from `config.py`. -/
inductive EditorProtocol | vscode | vscodium | nvim | obsidian | fileProto
deriving DecidableEq, Repr

/-- Python `html.escape(s, quote=True)` as it operates on one character
(`&` is replaced first, so the ampersands of inserted entities are never
re-escaped; the net effect is this per-character map). -/
def htmlEscapeChar (c : Char) : PyStr :=
  if c = '&' then "&amp;".toList
  else if c = '<' then "&lt;".toList
  else if c = '>' then "&gt;".toList
  else if c = '"' then "&quot;".toList
  else if c = '\'' then "&#x27;".toList
  else [c]

def htmlEscape (s : PyStr) : PyStr := s.flatMap htmlEscapeChar

/-- `html.escape` exactly as CPython implements it: five sequential
`str.replace` passes, `&` first. -/
def pyHtmlEscape (s : PyStr) : PyStr :=
  pyReplaceAll (pyReplaceAll (pyReplaceAll (pyReplaceAll
    (pyReplaceAll s ['&'] "&amp;".toList) ['<'] "&lt;".toList)
      ['>'] "&gt;".toList) ['"'] "&quot;".toList) ['\''] "&#x27;".toList

/-- The URL of each branch of `Config.build_source_link` (the path is the
resolved absolute path; `line` is inserted as Python writes the `int`). -/
def editorURL (proto : EditorProtocol) (absPath : PyStr) (line : Int) : PyStr :=
  match proto with
  | .vscode => "vscode://file".toList ++ absPath ++ ':' :: (intToChars line ++ ":1".toList)
  | .vscodium =>
      "vscodium://file".toList ++ absPath ++ ':' :: (intToChars line ++ ":1".toList)
  | .nvim => "nvim://open?file=".toList ++ absPath ++ "&line=".toList ++ intToChars line
  | .obsidian => "obsidian://open?path=".toList ++ absPath
  | .fileProto => "file://".toList ++ absPath

/-- The visible text of each branch of `Config.build_source_link`. -/
def editorText : EditorProtocol → PyStr
  | .vscode => "Open in VS Code".toList
  | .vscodium => "Open in VSCodium".toList
  | .nvim => "Open in Neovim".toList
  | .obsidian => "Open in Obsidian".toList
  | .fileProto => "Open File".toList

/-- `Config.build_source_link`: the branch URL and text, HTML-escaped, in
an anchor. -/
def build_source_link (proto : EditorProtocol) (absPath : PyStr) (line : Int) : PyStr :=
  "<a href=\"".toList ++ htmlEscape (editorURL proto absPath line) ++
    "\">".toList ++ htmlEscape (editorText proto) ++ "</a>".toList

/-- The `Source` field set by `build_note_fields` (`note_builder.py`
line 28): the source link built from the prompt's stored `file_path` and
`line_number`, unchanged. -/
def note_source_field (proto : EditorProtocol) (p : Prompt) : PyStr :=
  build_source_link proto p.file_path (p.line_number : Int)

/-! ## Theorems -/

/-! ### base52 lemmas -/

theorem base52Digit_mem (n : Nat) : base52Digit n ∈ BASE52_CHARS := by
  have h : ∀ i : Fin 52, BASE52_CHARS.getD i.val 'a' ∈ BASE52_CHARS := by decide
  have hlt : n % 52 < 52 := Nat.mod_lt _ (by norm_num)
  exact h ⟨n % 52, hlt⟩

theorem mem_BASE52_isAlpha : ∀ c ∈ BASE52_CHARS, c.isAlpha = true := by decide

theorem encodeLoop_mem : ∀ fuel n c, c ∈ encodeLoop fuel n → c ∈ BASE52_CHARS := by
  intro fuel
  induction fuel with
  | zero => intro n c hc; cases n <;> simp [encodeLoop] at hc
  | succ f ih =>
    intro n c hc
    cases n with
    | zero => simp [encodeLoop] at hc
    | succ m =>
      simp only [encodeLoop, List.mem_cons] at hc
      rcases hc with h | h
      · exact h ▸ base52Digit_mem _
      · exact ih _ _ h

theorem encodeLoop_fuel : ∀ n f g, n ≤ f → n ≤ g → encodeLoop f n = encodeLoop g n := by
  intro n
  induction n using Nat.strong_induction_on with
  | _ n ih =>
    intro f g hf hg
    match n, f, g with
    | 0, f, g => cases f <;> cases g <;> rfl
    | n + 1, f + 1, g + 1 =>
      have hdiv : (n + 1) / 52 < n + 1 := Nat.div_lt_self (Nat.succ_pos n) (by norm_num)
      have h1 : (n + 1) / 52 ≤ f := Nat.le_of_lt_succ (Nat.lt_of_lt_of_le hdiv hf)
      have h2 : (n + 1) / 52 ≤ g := Nat.le_of_lt_succ (Nat.lt_of_lt_of_le hdiv hg)
      simp only [encodeLoop]
      exact congrArg _ (ih _ hdiv f g h1 h2)

theorem decodeLoop_all_mem : ∀ (s : PyStr) (acc : Nat), (∀ c ∈ s, c ∈ BASE52_CHARS) →
    decodeLoop s acc = some (s.foldl (fun a c => a * 52 + BASE52_CHARS.indexOf c) acc) := by
  intro s
  induction s with
  | nil => intro acc _; rfl
  | cons c rest ih =>
    intro acc h
    have hc : c ∈ BASE52_CHARS := h c (List.mem_cons_self _ _)
    simp only [decodeLoop, if_pos hc, List.foldl_cons]
    exact ih _ (fun d hd => h d (List.mem_cons_of_mem _ hd))

theorem indexOf_base52Digit (n : Nat) : BASE52_CHARS.indexOf (base52Digit n) = n % 52 := by
  have h : ∀ i : Fin 52, BASE52_CHARS.indexOf (BASE52_CHARS.getD i.val 'a') = i.val := by decide
  have hlt : n % 52 < 52 := Nat.mod_lt _ (by norm_num)
  exact h ⟨n % 52, hlt⟩

theorem encodeLoop_value : ∀ n fuel, n ≤ fuel →
    ((encodeLoop fuel n).reverse).foldl (fun a c => a * 52 + BASE52_CHARS.indexOf c) 0 = n := by
  intro n
  induction n using Nat.strong_induction_on with
  | _ n ih =>
    intro fuel hfuel
    match n, fuel with
    | 0, fuel => cases fuel <;> rfl
    | n + 1, fuel + 1 =>
      have hdiv : (n + 1) / 52 < n + 1 := Nat.div_lt_self (Nat.succ_pos n) (by norm_num)
      have h1 : (n + 1) / 52 ≤ fuel := Nat.le_of_lt_succ (Nat.lt_of_lt_of_le hdiv hfuel)
      simp only [encodeLoop, List.reverse_cons, List.foldl_append, List.foldl_cons,
        List.foldl_nil]
      rw [ih _ hdiv fuel h1, indexOf_base52Digit]
      omega

theorem encode_base52_spec (n : Nat) :
    encode_base52 n ≠ [] ∧ ∀ c ∈ encode_base52 n, c ∈ BASE52_CHARS := by
  unfold encode_base52
  by_cases h : n = 0
  · subst h; refine ⟨by simp, ?_⟩; intro c hc; simp at hc; subst hc; decide
  · rw [if_neg h]
    obtain ⟨m, rfl⟩ : ∃ m, n = m + 1 := ⟨n - 1, by omega⟩
    constructor
    · have : encodeLoop (m + 1) (m + 1) = base52Digit (m + 1) :: encodeLoop m ((m + 1) / 52) := rfl
      simp [this]
    · intro c hc
      exact encodeLoop_mem _ _ _ (List.mem_reverse.mp hc)

theorem decode_encode_base52 (n : Nat) : decode_base52 (encode_base52 n) = some n := by
  obtain ⟨hne, hmem⟩ := encode_base52_spec n
  have halpha : pyIsAlpha (encode_base52 n) = true := by
    unfold pyIsAlpha
    rw [Bool.and_eq_true, List.all_eq_true]
    exact ⟨by simpa using hne, fun c hc => mem_BASE52_isAlpha c (hmem c hc)⟩
  unfold decode_base52
  rw [if_pos halpha, decodeLoop_all_mem _ _ hmem]
  unfold encode_base52
  by_cases h : n = 0
  · subst h; rfl
  · rw [if_neg h]
    rw [encodeLoop_value n n (le_refl n)]

/-- **C2.** Identity-codec laws: round-trip, output shape, and the four
concrete values from the spec. -/
theorem C2_base52_codec :
    (∀ n : Nat, decode_base52 (encode_base52 n) = some n) ∧
    (∀ n : Nat, encode_base52 n ≠ [] ∧ ∀ c ∈ encode_base52 n, c ∈ BASE52_CHARS) ∧
    encode_base52 0 = "a".toList ∧ encode_base52 51 = "Z".toList ∧
    encode_base52 52 = "ba".toList ∧ encode_base52 1234567890 = "dmSkYk".toList :=
  ⟨decode_encode_base52, encode_base52_spec, by decide, by decide, by decide, by decide⟩

/-- Witness for C2: the universally quantified parts evaluated at `n = 5`
(`encode_base52 5 = "f"`), discharging the membership hypothesis concretely. -/
theorem C2_base52_codec_witness :
    decode_base52 (encode_base52 5) = some 5 ∧ 'f' ∈ BASE52_CHARS :=
  ⟨C2_base52_codec.1 5, (C2_base52_codec.2.1 5).2 'f' (by decide)⟩

/-! ### C10: totality of the encoder loop, divergence on negative input -/

theorem fdiv_negSucc_52 (m : Nat) : Int.fdiv (Int.negSucc m) 52 = Int.negSucc (m / 52) := rfl

theorem encodeLoopInt_neg : ∀ (fuel : Nat) (num : Int), num < 0 →
    encodeLoopInt fuel num = none := by
  intro fuel
  induction fuel with
  | zero =>
    intro num h
    simp only [encodeLoopInt, if_neg (by omega : ¬ num = 0)]
  | succ f ih =>
    intro num h
    obtain ⟨m, rfl⟩ : ∃ m, num = Int.negSucc m := by
      cases num with
      | ofNat k => exact absurd h (Int.not_lt.mpr (Int.ofNat_nonneg k))
      | negSucc m => exact ⟨m, rfl⟩
    simp only [encodeLoopInt, if_neg (by omega : ¬ Int.negSucc m = 0)]
    rw [fdiv_negSucc_52, ih _ (Int.negSucc_lt_zero _)]
    rfl

theorem encodeLoopInt_nonneg : ∀ (n : Nat) (fuel : Nat), n ≤ fuel →
    encodeLoopInt fuel (n : Int) = some (encodeLoop n n) := by
  have key : ∀ (n : Nat) (fuel : Nat), n ≤ fuel →
      encodeLoopInt fuel (n : Int) = some (encodeLoop fuel n) := by
    intro n
    induction n using Nat.strong_induction_on with
    | _ n ih =>
      intro fuel hfuel
      match n, fuel with
      | 0, fuel =>
        cases fuel <;> simp [encodeLoopInt, encodeLoop]
      | n + 1, fuel + 1 =>
        have hdiv : (n + 1) / 52 < n + 1 := Nat.div_lt_self (Nat.succ_pos n) (by norm_num)
        have h1 : (n + 1) / 52 ≤ fuel := Nat.le_of_lt_succ (Nat.lt_of_lt_of_le hdiv hfuel)
        have hfd : (((n + 1 : Nat) : Int)).fdiv 52 = (((n + 1) / 52 : Nat) : Int) := rfl
        have hmod : ((((n + 1 : Nat) : Int)).emod 52).toNat = (n + 1) % 52 := rfl
        simp only [encodeLoopInt, if_neg (by omega : ¬ ((n + 1 : Nat) : Int) = 0), hfd,
          ih _ hdiv fuel h1, Option.map_some']
        simp only [encodeLoop, hmod]
        rfl
  intro n fuel hfuel
  rw [key n fuel hfuel, encodeLoop_fuel n fuel n hfuel (le_refl n)]

/-- **C10.** Encoder totality: with fuel `≥ num` the `while num:` loop of
`encode_base52` finishes on every `num ≥ 0` (producing exactly the digits the
`Nat`-level encoder produces), and on every `num < 0` it never finishes, no
matter how much fuel it is given — under Python semantics `num // 52` keeps a
negative value negative, hence truthy. -/
theorem C10_encode_totality :
    (∀ n : Nat, ∀ fuel : Nat, n ≤ fuel → encodeLoopInt fuel (n : Int) = some (encodeLoop n n)) ∧
    (∀ num : Int, num < 0 → ∀ fuel : Nat, encodeLoopInt fuel num = none) :=
  ⟨encodeLoopInt_nonneg, fun num h fuel => encodeLoopInt_neg fuel num h⟩

/-- Witness for C10: the loop finishes at `num = 100` and is still unfinished
after 1000 iterations at `num = -7`. -/
theorem C10_encode_totality_witness :
    encodeLoopInt 100 (100 : Int) = some (encodeLoop 100 100) ∧
    encodeLoopInt 1000 (-7 : Int) = none :=
  ⟨C10_encode_totality.1 100 100 (by decide),
   C10_encode_totality.2 (-7) (by decide) 1000⟩

/-! ### C7: scope parsing invariant -/

theorem scopeSpec_make_inv (b a : Int) :
    (ScopeSpec.make b a).before ≤ 0 ∧ 0 ≤ (ScopeSpec.make b a).after := by
  unfold ScopeSpec.make
  constructor <;> dsimp <;> split <;> omega

theorem parse_scope_inv (s : Option PyStr) (il : Bool) :
    (parse_scope s il).before ≤ 0 ∧ 0 ≤ (parse_scope s il).after := by
  obtain ⟨b, a, hba⟩ : ∃ b a, parse_scope s il = ScopeSpec.make b a := by
    unfold parse_scope ScopeSpec.dfault ScopeSpec.list_dfault
    dsimp only
    repeat' split
    all_goals exact ⟨_, _, rfl⟩
  rw [hba]; exact scopeSpec_make_inv b a

theorem parse_scope_single (s : PyStr) (v : Int) (hs : s ≠ [])
    (hlen : ((pySplitChar ',' s).map pyStrip).length = 1)
    (hint : pyInt (((pySplitChar ',' s).map pyStrip).getD 0 []) = some v) (il : Bool) :
    parse_scope (some s) il = if v < 0 then ScopeSpec.make v 0 else ScopeSpec.make 0 v := by
  simp only [parse_scope, if_neg hs, hlen, if_pos, hint]

theorem parse_scope_pair (s : PyStr) (b a : Int) (hs : s ≠ [])
    (hlen : ((pySplitChar ',' s).map pyStrip).length ≠ 1)
    (hb : pyInt (((pySplitChar ',' s).map pyStrip).getD 0 []) = some b)
    (ha : pyInt (((pySplitChar ',' s).map pyStrip).getD 1 []) = some a) (il : Bool) :
    parse_scope (some s) il = ⟨-(|b|), |a|⟩ := by
  simp only [parse_scope, if_neg hs, if_neg hlen, hb, ha]
  unfold ScopeSpec.make
  congr 1
  · split
    next h => rw [abs_of_pos h]
    next h => rw [abs_of_nonpos (by omega)]; omega
  · split
    next h => rw [abs_of_neg h]
    next h => rw [abs_of_nonneg (by omega)]

theorem parse_scope_malformed (s : PyStr) (hs : s ≠ []) (h : scopeWellFormed s = false) :
    parse_scope (some s) false = ScopeSpec.dfault := by
  simp only [scopeWellFormed] at h
  simp only [parse_scope, if_neg hs, Bool.if_false_left]
  by_cases hlen : ((pySplitChar ',' s).map pyStrip).length = 1
  · rw [if_pos hlen] at h ⊢
    cases hp : pyInt (((pySplitChar ',' s).map pyStrip).getD 0 []) with
    | none => rfl
    | some v => rw [hp] at h; simp at h
  · rw [if_neg hlen] at h ⊢
    cases hp : pyInt (((pySplitChar ',' s).map pyStrip).getD 0 []) with
    | none => rfl
    | some b =>
      cases hq : pyInt (((pySplitChar ',' s).map pyStrip).getD 1 []) with
      | none => rfl
      | some a => rw [hp, hq] at h; simp at h

/-- **C7.** Scope invariant: every `ScopeSpec` produced by `parse_scope`
satisfies `before ≤ 0 ≤ after`; a single integer goes to `before` when
negative and to `after` otherwise; a pair is assigned literally and then
sign-normalized by the `ScopeSpec` validators (`before ← -|before|`,
`after ← |after|`); a malformed scope string yields the default, which is
`(0, 0)` (in the non-list context the extractor always uses). -/
theorem C7_scope_invariant :
    (∀ (s : Option PyStr) (il : Bool),
        (parse_scope s il).before ≤ 0 ∧ 0 ≤ (parse_scope s il).after) ∧
    (∀ (s : PyStr) (v : Int), s ≠ [] →
        ((pySplitChar ',' s).map pyStrip).length = 1 →
        pyInt (((pySplitChar ',' s).map pyStrip).getD 0 []) = some v →
        ∀ il, parse_scope (some s) il =
          if v < 0 then ScopeSpec.make v 0 else ScopeSpec.make 0 v) ∧
    (∀ (s : PyStr) (b a : Int), s ≠ [] →
        ((pySplitChar ',' s).map pyStrip).length ≠ 1 →
        pyInt (((pySplitChar ',' s).map pyStrip).getD 0 []) = some b →
        pyInt (((pySplitChar ',' s).map pyStrip).getD 1 []) = some a →
        ∀ il, parse_scope (some s) il = ⟨-(|b|), |a|⟩) ∧
    (∀ s : PyStr, s ≠ [] → scopeWellFormed s = false →
        parse_scope (some s) false = ScopeSpec.dfault) ∧
    ScopeSpec.dfault = ⟨0, 0⟩ :=
  ⟨parse_scope_inv, parse_scope_single, parse_scope_pair, parse_scope_malformed, rfl⟩

/-- Witness for C7 at concrete scope strings: `"-3"` (single negative),
`"2,-5"` (pair, sign-normalized to `(-2, 5)`), `"x"` (malformed). -/
theorem C7_scope_invariant_witness :
    parse_scope (some "-3".toList) false = ScopeSpec.make (-3) 0 ∧
    parse_scope (some "2,-5".toList) false = ⟨-2, 5⟩ ∧
    parse_scope (some "x".toList) false = ScopeSpec.dfault := by
  refine ⟨?_, ?_, ?_⟩
  · have h := C7_scope_invariant.2.1 "-3".toList (-3) (by decide) (by decide) (by decide) false
    rw [h]; decide
  · have h := C7_scope_invariant.2.2.1 "2,-5".toList 2 (-5) (by decide) (by decide)
      (by decide) (by decide) false
    rw [h]; decide
  · exact C7_scope_invariant.2.2.2.1 "x".toList (by decide) (by decide)

/-! ### C6: ID-part classification -/

/-- **C6, counterexample.** Four concrete refutations of the claimed
ID-part classification: the result depends on the order of parts
(`"1,2"` vs `"2,1"`); a dotted part whose components are not digits still
sets `cloze_id` instead of being ignored; `sequence_order` is set from a
signed (non-digit) second component; and a later dotted part with an
unparsable order *clears* a previously set `sequence_order`. -/
theorem C6_id_parts_counterexample :
    parse_cloze_ids "1,2".toList ≠ parse_cloze_ids "2,1".toList ∧
    parse_cloze_ids "abc.def".toList = ⟨some "abc".toList, none, none⟩ ∧
    parse_cloze_ids "1.-3".toList = ⟨some "1".toList, some (-3), none⟩ ∧
    parse_cloze_ids "1.2,3.x".toList = ⟨some "3".toList, none, none⟩ :=
  ⟨by decide, by decide, by decide, by decide⟩

theorem char_alpha_not_digit (c : Char) (h : c.isAlpha = true) : c.isDigit = false := by
  simp only [Char.isAlpha, Char.isUpper, Char.isLower, Char.isDigit, Bool.or_eq_true,
    Bool.and_eq_true, decide_eq_true_eq] at h ⊢
  simp only [Bool.and_eq_false_iff, decide_eq_false_iff_not]
  rcases h with ⟨h1, h2⟩ | ⟨h1, h2⟩ <;>
    · right; intro hle
      exact absurd (UInt32.le_trans h1 hle) (by decide)

theorem digits_not_mem_dot (g : PyStr) (h : pyIsDigit g = true) : '.' ∉ g := by
  simp only [pyIsDigit, Bool.and_eq_true, List.all_eq_true] at h
  intro hm
  have := h.2 '.' hm
  simp at this

theorem alpha_not_mem_dot (a : PyStr) (h : pyIsAlpha a = true) : '.' ∉ a := by
  simp only [pyIsAlpha, Bool.and_eq_true, List.all_eq_true] at h
  intro hm
  have := h.2 '.' hm
  simp at this

theorem alpha_not_digits (a : PyStr) (h : pyIsAlpha a = true) : pyIsDigit a = false := by
  simp only [pyIsAlpha, Bool.and_eq_true, List.all_eq_true] at h
  obtain ⟨c, rest, rfl⟩ : ∃ c rest, a = c :: rest := by
    cases a with
    | nil => simp at h
    | cons c rest => exact ⟨c, rest, rfl⟩
  have hc : c.isDigit = false :=
    char_alpha_not_digit c (h.2 c (List.mem_cons_self _ _))
  simp [pyIsDigit, hc]

theorem applyIdPart_eq_spec (st : IdsTriple) (part : PyStr) :
    applyIdPart st part = idPartRuleSpec st part := by
  unfold applyIdPart idPartRuleSpec
  by_cases hdot : part.contains '.' = true
  · rw [if_pos hdot, if_pos hdot]
    cases h : pyInt (pyStrip ((pySplitFirst '.' part).2.getD [])) <;> simp [h]
  · rw [if_neg hdot, if_neg hdot]

theorem idParts_digit_alpha_comm (st : IdsTriple) (g a : PyStr)
    (hg : pyIsDigit g = true) (ha : pyIsAlpha a = true) :
    [g, a].foldl applyIdPart st = [a, g].foldl applyIdPart st ∧
    [g, a].foldl applyIdPart st =
      ⟨some g, st.sequence_order, some a⟩ := by
  have hgd : '.' ∉ g := digits_not_mem_dot g hg
  have had : '.' ∉ a := alpha_not_mem_dot a ha
  have haD : pyIsDigit a = false := alpha_not_digits a ha
  obtain ⟨ci, so, ai⟩ := st
  simp [applyIdPart, hgd, had, hg, ha, haD]

theorem idParts_later_digit_wins (st : IdsTriple) (p q : PyStr)
    (hp : pyIsDigit p = true) (hq : pyIsDigit q = true) :
    [p, q].foldl applyIdPart st = ⟨some q, st.sequence_order, st.anki_id⟩ := by
  have hpd : '.' ∉ p := digits_not_mem_dot p hp
  have hqd : '.' ∉ q := digits_not_mem_dot q hq
  obtain ⟨ci, so, ai⟩ := st
  simp [applyIdPart, hpd, hqd, hp, hq]

/-- **C6, amended.** Per-part semantics of `parse_cloze_ids`: each trimmed
part is processed left to right by the rule `idPartRuleSpec` (dotted parts
set `cloze_id` unconditionally and set or clear `sequence_order`; digit
parts set `cloze_id`; letter parts set `anki_id`; others are ignored), with
later assignments overwriting earlier ones — so the result is
order-independent only when the parts touch disjoint fields, as in the
spec's own example `"1,abc"` / `"abc,1"`. -/
theorem C6_id_parts_amended :
    (∀ st part, applyIdPart st part = idPartRuleSpec st part) ∧
    (∀ st (g a : PyStr), pyIsDigit g = true → pyIsAlpha a = true →
      [g, a].foldl applyIdPart st = [a, g].foldl applyIdPart st ∧
      [g, a].foldl applyIdPart st = ⟨some g, st.sequence_order, some a⟩) ∧
    (∀ st (p q : PyStr), pyIsDigit p = true → pyIsDigit q = true →
      [p, q].foldl applyIdPart st = ⟨some q, st.sequence_order, st.anki_id⟩) ∧
    parse_cloze_ids "1,abc".toList = ⟨some "1".toList, none, some "abc".toList⟩ ∧
    parse_cloze_ids "abc,1".toList = ⟨some "1".toList, none, some "abc".toList⟩ :=
  ⟨applyIdPart_eq_spec, idParts_digit_alpha_comm, idParts_later_digit_wins,
    by decide, by decide⟩

/-- Witness for C6 (amended) at concrete parts `"12"` (digits) and `"xy"`
(letters), starting from the empty triple. -/
theorem C6_id_parts_amended_witness :
    ["12".toList, "xy".toList].foldl applyIdPart ⟨none, none, none⟩ =
      ⟨some "12".toList, none, some "xy".toList⟩ :=
  (C6_id_parts_amended.2.1 ⟨none, none, none⟩ "12".toList "xy".toList
    (by decide) (by decide)).2

/-! ### C1: brace-balanced tokenizing -/

theorem depthUpTo_cons_succ (c : Char) (rest : PyStr) (k : Nat) :
    depthUpTo (c :: rest) (k + 1) = braceDelta c + depthUpTo rest k := by
  simp [depthUpTo]

theorem isCloseAt_cons_zero (c : Char) (rest : PyStr) (d : Int) :
    isCloseAt (c :: rest) 0 d ↔ (c = '}' ∧ rest.head? = some '}' ∧ d + braceDelta c = 1) := by
  unfold isCloseAt
  rw [depthUpTo_cons_succ]
  have h0 : (c :: rest).get? 0 = some c := rfl
  have h1 : (c :: rest).get? 1 = rest.head? := by
    cases rest <;> rfl
  rw [h0, h1]
  have hd : depthUpTo rest 0 = 0 := rfl
  rw [hd]
  constructor
  · rintro ⟨hc, hh, hdep⟩
    exact ⟨by injection hc, hh, by omega⟩
  · rintro ⟨hc, hh, hdep⟩
    exact ⟨by rw [hc], hh, by omega⟩

theorem isCloseAt_cons_succ (c : Char) (rest : PyStr) (k : Nat) (d : Int) :
    isCloseAt (c :: rest) (k + 1) d ↔ isCloseAt rest k (d + braceDelta c) := by
  unfold isCloseAt
  rw [List.get?_cons_succ, List.get?_cons_succ, depthUpTo_cons_succ]
  constructor <;> (rintro ⟨h1, h2, h3⟩; exact ⟨h1, h2, by omega⟩)

theorem fcb_shift (c : Char) (rest : PyStr) (i : Nat) (d : Int) (r : Nat)
    (hnot0 : ¬ isCloseAt (c :: rest) 0 d) :
    (∃ k, r = (i + 1) + k ∧ isCloseAt rest k (d + braceDelta c) ∧
      ∀ j < k, ¬ isCloseAt rest j (d + braceDelta c)) ↔
    (∃ k, r = i + k ∧ isCloseAt (c :: rest) k d ∧ ∀ j < k, ¬ isCloseAt (c :: rest) j d) := by
  constructor
  · rintro ⟨k, rfl, hk, hmin⟩
    refine ⟨k + 1, by omega, (isCloseAt_cons_succ c rest k d).mpr hk, ?_⟩
    intro j hj
    cases j with
    | zero => exact hnot0
    | succ j' =>
      rw [isCloseAt_cons_succ]
      exact hmin j' (by omega)
  · rintro ⟨k, rfl, hk, hmin⟩
    cases k with
    | zero => exact absurd hk hnot0
    | succ k' =>
      refine ⟨k', by omega, (isCloseAt_cons_succ c rest k' d).mp hk, ?_⟩
      intro j hj hcl
      exact hmin (j + 1) (by omega) ((isCloseAt_cons_succ c rest j d).mpr hcl)

theorem fcbAux_some_iff : ∀ (l : PyStr) (i : Nat) (d : Int) (r : Nat),
    fcbAux l i d = some r ↔
      ∃ k, r = i + k ∧ isCloseAt l k d ∧ ∀ j < k, ¬ isCloseAt l j d := by
  intro l
  induction l with
  | nil =>
    intro i d r
    simp only [fcbAux]
    constructor
    · intro h; exact absurd h (by simp)
    · rintro ⟨k, _, ⟨hk, _, _⟩, _⟩
      simp at hk
  | cons c rest ih =>
    intro i d r
    by_cases hc : c = '{'
    · subst hc
      have hδ : braceDelta '{' = 1 := rfl
      have heq : fcbAux ('{' :: rest) i d = fcbAux rest (i + 1) (d + 1) := by
        simp [fcbAux]
      rw [heq, ih]
      have := fcb_shift '{' rest i d r (by
        rw [isCloseAt_cons_zero]
        rintro ⟨h, _, _⟩
        exact absurd h (by decide))
      rw [hδ] at this
      exact this
    · by_cases hc2 : c = '}'
      · subst hc2
        have hδ : braceDelta '}' = -1 := rfl
        by_cases hcond : d - 1 = 1 ∧ rest.head? = some '}'
        · have heq : fcbAux ('}' :: rest) i d = some i := by
            simp [fcbAux, hcond]
          rw [heq]
          have hclose0 : isCloseAt ('}' :: rest) 0 d := by
            rw [isCloseAt_cons_zero, hδ]
            exact ⟨rfl, hcond.2, by omega⟩
          constructor
          · intro h
            have hr : r = i := by injection h; omega
            exact ⟨0, by omega, hclose0, by intro j hj; omega⟩
          · rintro ⟨k, rfl, hk, hmin⟩
            cases k with
            | zero => simp
            | succ k' => exact absurd hclose0 (hmin 0 (Nat.succ_pos k'))
        · have heq : fcbAux ('}' :: rest) i d = fcbAux rest (i + 1) (d - 1) := by
            simp [fcbAux, hcond]
          rw [heq, ih]
          have := fcb_shift '}' rest i d r (by
            rw [isCloseAt_cons_zero, hδ]
            rintro ⟨_, hh, hdep⟩
            exact hcond ⟨by omega, hh⟩)
          rw [hδ] at this
          have harith : d + -1 = d - 1 := by omega
          rw [harith] at this
          exact this
      · have hδ : braceDelta c = 0 := by simp [braceDelta, hc, hc2]
        have heq : fcbAux (c :: rest) i d = fcbAux rest (i + 1) d := by
          simp only [fcbAux]
          rw [if_neg hc, if_neg hc2]
        rw [heq, ih]
        have := fcb_shift c rest i d r (by
          rw [isCloseAt_cons_zero]
          rintro ⟨h, _, _⟩
          exact hc2 h)
        rw [hδ, add_zero] at this
        exact this

theorem find_closing_braces_iff (text : PyStr) (start r : Nat) :
    find_closing_braces text start = some r ↔
      ∃ k, r = start + k ∧ isCloseAt (text.drop start) k 0 ∧
        ∀ j < k, ¬ isCloseAt (text.drop start) j 0 :=
  fcbAux_some_iff (text.drop start) start 0 r

/-- **C1.** Brace-balanced tokenizing: `find_closing_braces` returns exactly
the first offset at which a `}}` pair brings the running brace depth
(counting every `{` and `}`) down to 1, so nested single braces stay inside
the cloze; and the two concrete LaTeX examples of the spec each parse to a
single cloze with the full interior as its answer. -/
theorem C1_brace_balance :
    (∀ (text : PyStr) (start r : Nat),
        find_closing_braces text start = some r ↔
          ∃ k, r = start + k ∧ isCloseAt (text.drop start) k 0 ∧
            ∀ j < k, ¬ isCloseAt (text.drop start) j 0) ∧
    (parse_clozes "\x7b\x7b$\\frac\x7ba\x7d\x7bb\x7d$\x7d\x7d".toList 0 false).map
        (fun c => c.answer) = ["$\\frac\x7ba\x7d\x7bb\x7d$".toList] ∧
    (parse_clozes "\x7b\x7b$\x7ba\x7bb\x7bc\x7d\x7d\x7d$\x7d\x7d".toList 0 false).map
        (fun c => c.answer) = ["$\x7ba\x7bb\x7bc\x7d\x7d\x7d$".toList] :=
  ⟨find_closing_braces_iff, by decide, by decide⟩

/-- Witness for C1: the characterization applied to the first spec example,
whose closer is at index 15. -/
theorem C1_brace_balance_witness :
    ∃ k, 15 = 0 + k ∧
      isCloseAt ("\x7b\x7b$\\frac\x7ba\x7d\x7bb\x7d$\x7d\x7d".toList.drop 0) k 0 ∧
      ∀ j < k, ¬ isCloseAt ("\x7b\x7b$\\frac\x7ba\x7d\x7bb\x7d$\x7d\x7d".toList.drop 0) j 0 :=
  (C1_brace_balance.1 "\x7b\x7b$\\frac\x7ba\x7d\x7bb\x7d$\x7d\x7d".toList 0 15).mp (by decide)

/-! ### C4: sequence-group detection -/

theorem alistGet_cons (k a : PyStr) (b : ClozeGroup) (rest : List (PyStr × ClozeGroup)) :
    alistGet k ((a, b) :: rest) = if a = k then some b else alistGet k rest := by
  by_cases h : a = k <;> simp [alistGet, List.find?, h]

theorem alistGet_set_eq (k : PyStr) (v : ClozeGroup) (l : List (PyStr × ClozeGroup)) :
    alistGet k (alistSet k v l) = some v := by
  induction l with
  | nil => simp [alistGet, alistSet, List.find?]
  | cons p rest ih =>
    obtain ⟨k', v'⟩ := p
    by_cases h : k' = k
    · simp [alistSet, h, alistGet_cons]
    · simp only [alistSet, if_neg h]
      rw [alistGet_cons, if_neg h]
      exact ih

theorem alistGet_set_ne (k k' : PyStr) (v : ClozeGroup) (l : List (PyStr × ClozeGroup))
    (h : k ≠ k') : alistGet k (alistSet k' v l) = alistGet k l := by
  induction l with
  | nil =>
    simp only [alistSet]
    rw [alistGet_cons, if_neg (Ne.symm h)]
  | cons p rest ih =>
    obtain ⟨k'', v''⟩ := p
    by_cases h2 : k'' = k'
    · subst h2
      have hs : alistSet k'' v ((k'', v'') :: rest) = (k'', v) :: rest := by
        simp [alistSet]
      rw [hs, alistGet_cons, alistGet_cons, if_neg (Ne.symm h), if_neg (Ne.symm h)]
    · simp only [alistSet, if_neg h2]
      rw [alistGet_cons, alistGet_cons]
      by_cases h3 : k'' = k
      · rw [if_pos h3, if_pos h3]
      · rw [if_neg h3, if_neg h3]
        exact ih

theorem alistGet_update_eq (k : PyStr) (f : ClozeGroup → ClozeGroup)
    (l : List (PyStr × ClozeGroup)) (g : ClozeGroup) (h : alistGet k l = some g) :
    alistGet k (alistUpdate k f l) = some (f g) := by
  induction l with
  | nil => simp [alistGet, List.find?] at h
  | cons p rest ih =>
    obtain ⟨k', v'⟩ := p
    rw [alistGet_cons] at h
    by_cases h2 : k' = k
    · rw [if_pos h2] at h
      injection h with h
      simp only [alistUpdate, if_pos h2]
      rw [alistGet_cons, if_pos h2, h]
    · rw [if_neg h2] at h
      simp only [alistUpdate, if_neg h2]
      rw [alistGet_cons, if_neg h2]
      exact ih h

theorem alistGet_update_ne (k k' : PyStr) (f : ClozeGroup → ClozeGroup)
    (l : List (PyStr × ClozeGroup)) (h : k ≠ k') :
    alistGet k (alistUpdate k' f l) = alistGet k l := by
  induction l with
  | nil => rfl
  | cons p rest ih =>
    obtain ⟨k'', v''⟩ := p
    by_cases h2 : k'' = k'
    · subst h2
      have hu : alistUpdate k'' f ((k'', v'') :: rest) = (k'', f v'') :: rest := by
        simp [alistUpdate]
      rw [hu, alistGet_cons, alistGet_cons, if_neg (Ne.symm h), if_neg (Ne.symm h)]
    · simp only [alistUpdate, if_neg h2]
      rw [alistGet_cons, alistGet_cons]
      by_cases h3 : k'' = k
      · rw [if_pos h3, if_pos h3]
      · rw [if_neg h3, if_neg h3]
        exact ih

theorem alistHas_eq_isSome (k : PyStr) (l : List (PyStr × ClozeGroup)) :
    alistHas k l = (alistGet k l).isSome := by
  induction l with
  | nil => rfl
  | cons p rest ih =>
    obtain ⟨k', v'⟩ := p
    rw [alistGet_cons]
    by_cases h : k' = k
    · simp [alistHas, h]
    · rw [if_neg h]
      simp only [alistHas, List.any_cons] at ih ⊢
      simp [h, ih]

theorem individualKey_head (n : Nat) : (individualKey n).head? = some '_' := by
  simp [individualKey]

theorem individualKey_ne (n : Nat) (gid : PyStr) (hhead : gid.head? ≠ some '_') :
    gid ≠ individualKey n :=
  fun h => hhead (h ▸ individualKey_head n)

theorem groupLoop_get (gid : PyStr) (hgid : gid ≠ []) (hhead : gid.head? ≠ some '_') :
    ∀ (clozes : List ClozeMatch) (groups : List (PyStr × ClozeGroup)) (counter : Nat),
      (∀ g, alistGet gid groups = some g →
        alistGet gid (groupClozesLoop clozes groups counter) =
          some { g with
                 clozes := g.clozes ++ clozes.filter (fun c => c.cloze_id = some gid) }) ∧
      (alistGet gid groups = none →
        ∀ c₀, clozes.find? (fun c => c.cloze_id = some gid) = some c₀ →
          alistGet gid (groupClozesLoop clozes groups counter) =
            some ⟨gid, clozes.filter (fun c => c.cloze_id = some gid),
                  c₀.cloze_type == ClozeType.SEQUENCE⟩) := by
  intro clozes
  induction clozes with
  | nil =>
    intro groups counter
    constructor
    · intro g hg
      simpa [groupClozesLoop] using hg
    · intro _ c₀ h
      simp at h
  | cons c rest ih =>
    intro groups counter
    have hfilter_pos : c.cloze_id = some gid →
        (c :: rest).filter (fun c => c.cloze_id = some gid) =
          c :: rest.filter (fun c => c.cloze_id = some gid) := by
      intro h
      rw [List.filter_cons_of_pos]
      simpa using h
    have hfilter_neg : ¬ (c.cloze_id = some gid) →
        (c :: rest).filter (fun c => c.cloze_id = some gid) =
          rest.filter (fun c => c.cloze_id = some gid) := by
      intro h
      rw [List.filter_cons_of_neg]
      simpa using h
    constructor
    · -- clause A: the group already exists before this step
      intro g hg
      cases hcid : c.cloze_id with
      | some cid =>
        by_cases hceq : cid = gid
        · subst hceq
          have hcne : cid ≠ [] := hgid
          have hhas : alistHas cid groups = true := by
            rw [alistHas_eq_isSome, hg]; rfl
          simp only [groupClozesLoop, hcid, ne_eq, hcne, not_false_eq_true, if_true, hhas,
            if_true]
          have hupd := alistGet_update_eq cid
            (fun g => { g with clozes := g.clozes ++ [c] }) groups g hg
          have := (ih _ counter).1 _ hupd
          rw [this, hfilter_pos hcid]
          obtain ⟨gi, gc, gs⟩ := g
          simp
        · by_cases hcne : cid = []
          · subst hcne
            simp only [groupClozesLoop, hcid, ne_eq, not_true_eq_false, if_false]
            have hset := alistGet_set_ne gid (individualKey counter)
              ⟨individualKey counter, [c], false⟩ groups (individualKey_ne counter gid hhead)
            have := (ih _ (counter + 1)).1 g (by rw [hset]; exact hg)
            rw [this, hfilter_neg (by rw [hcid]; intro h; exact hgid (by injection h with h; exact h.symm))]
          · simp only [groupClozesLoop, hcid, ne_eq, hcne, not_false_eq_true, if_true]
            have hget' : ∀ groups', alistGet gid groups' = alistGet gid groups →
                alistGet gid (alistUpdate cid
                  (fun g => { g with clozes := g.clozes ++ [c] }) groups') =
                  some g := by
              intro groups' hgroups'
              rw [alistGet_update_ne gid cid _ groups' (fun h => hceq (h.symm)), hgroups', hg]
            by_cases hhas : alistHas cid groups = true
            · simp only [hhas, if_true]
              have := (ih _ counter).1 g (hget' groups rfl)
              rw [this, hfilter_neg (by rw [hcid]; intro h; injection h with h; exact hceq h)]
            · simp only [Bool.not_eq_true] at hhas
              simp only [hhas, Bool.false_eq_true, if_false]
              have hset := alistGet_set_ne gid cid
                ⟨cid, [], c.cloze_type == ClozeType.SEQUENCE⟩ groups (fun h => hceq (h.symm))
              have := (ih _ counter).1 g (hget' _ hset)
              rw [this, hfilter_neg (by rw [hcid]; intro h; injection h with h; exact hceq h)]
      | none =>
        simp only [groupClozesLoop, hcid]
        have hset := alistGet_set_ne gid (individualKey counter)
          ⟨individualKey counter, [c], false⟩ groups (individualKey_ne counter gid hhead)
        have := (ih _ (counter + 1)).1 g (by rw [hset]; exact hg)
        rw [this, hfilter_neg (by rw [hcid]; exact fun h => Option.noConfusion h)]
    · -- clause B: the group is first created inside this step
      intro hnone c₀ hfind
      by_cases hmatch : c.cloze_id = some gid
      · have hc₀ : c₀ = c := by
          rw [List.find?_cons_of_pos] at hfind
          · injection hfind with h; exact h.symm
          · simpa using hmatch
        subst hc₀
        have hcne : gid ≠ [] := hgid
        have hhas : alistHas gid groups = false := by
          rw [alistHas_eq_isSome, hnone]; rfl
        simp only [groupClozesLoop, hmatch, ne_eq, hcne, not_false_eq_true, if_true, hhas,
          Bool.false_eq_true, if_false]
        have hset := alistGet_set_eq gid
          ⟨gid, [], c₀.cloze_type == ClozeType.SEQUENCE⟩ groups
        have hupd := alistGet_update_eq gid
          (fun g => { g with clozes := g.clozes ++ [c₀] }) _ _ hset
        have := (ih _ counter).1 _ hupd
        rw [this, hfilter_pos hmatch]
        simp
      · have hfind' : rest.find? (fun c => c.cloze_id = some gid) = some c₀ := by
          rw [List.find?_cons_of_neg] at hfind
          · exact hfind
          · simpa using hmatch
        cases hcid : c.cloze_id with
        | some cid =>
          have hceq : cid ≠ gid := by
            intro h; exact hmatch (by rw [hcid, h])
          by_cases hcne : cid = []
          · subst hcne
            simp only [groupClozesLoop, hcid, ne_eq, not_true_eq_false, if_false]
            have hset := alistGet_set_ne gid (individualKey counter)
              ⟨individualKey counter, [c], false⟩ groups (individualKey_ne counter gid hhead)
            have := (ih _ (counter + 1)).2 (by rw [hset]; exact hnone) c₀ hfind'
            rw [this, hfilter_neg hmatch]
          · simp only [groupClozesLoop, hcid, ne_eq, hcne, not_false_eq_true, if_true]
            have hnone' : ∀ groups', alistGet gid groups' = alistGet gid groups →
                alistGet gid (alistUpdate cid
                  (fun g => { g with clozes := g.clozes ++ [c] }) groups') = none := by
              intro groups' hgroups'
              rw [alistGet_update_ne gid cid _ groups' (fun h => hceq (h.symm)), hgroups',
                hnone]
            by_cases hhas : alistHas cid groups = true
            · simp only [hhas, if_true]
              have := (ih _ counter).2 (hnone' groups rfl) c₀ hfind'
              rw [this, hfilter_neg hmatch]
            · simp only [Bool.not_eq_true] at hhas
              simp only [hhas, Bool.false_eq_true, if_false]
              have hset := alistGet_set_ne gid cid
                ⟨cid, [], c.cloze_type == ClozeType.SEQUENCE⟩ groups (fun h => hceq (h.symm))
              have := (ih _ counter).2 (hnone' _ hset) c₀ hfind'
              rw [this, hfilter_neg hmatch]
        | none =>
          simp only [groupClozesLoop, hcid]
          have hset := alistGet_set_ne gid (individualKey counter)
            ⟨individualKey counter, [c], false⟩ groups (individualKey_ne counter gid hhead)
          have := (ih _ (counter + 1)).2 (by rw [hset]; exact hnone) c₀ hfind'
          rw [this, hfilter_neg hmatch]

/-- **C4, counterexample.** With a grouped (non-sequence) cloze first and a
sequence cloze of the same group second, the built group has a member with
`sequence_order` set and yet `is_sequence = false`: detection is *not*
independent of which member appears first. -/
theorem C4_sequence_detection_counterexample :
    ¬ (∀ kv ∈ _group_clozes [grpCloze, seqCloze],
        (kv.2.is_sequence = true ↔ ∃ c ∈ kv.2.clozes, c.sequence_order.isSome = true)) := by
  decide

/-- **C4, amended.** For every cloze list (whose group ids do not collide
with the synthetic `_individual_` key space), the group built for `gid`
collects exactly the clozes carrying that id, in source order, and it is a
sequence group iff the *first* such cloze in source order is a SEQUENCE
cloze — the later members do not influence `is_sequence`. -/
theorem C4_sequence_detection_amended :
    ∀ (clozes : List ClozeMatch) (gid : PyStr), gid ≠ [] → gid.head? ≠ some '_' →
      ∀ c₀, clozes.find? (fun c => c.cloze_id = some gid) = some c₀ →
        alistGet gid (_group_clozes clozes) =
          some ⟨gid, clozes.filter (fun c => c.cloze_id = some gid),
                c₀.cloze_type == ClozeType.SEQUENCE⟩ := by
  intro clozes gid hgid hhead c₀ hfind
  exact (groupLoop_get gid hgid hhead clozes [] 0).2 rfl c₀ hfind

/-- Witness for C4 (amended) at the two concrete clozes above: the first
member is GROUPED, so the group comes out with `is_sequence = false`. -/
theorem C4_sequence_detection_amended_witness :
    alistGet ['1'] (_group_clozes [grpCloze, seqCloze]) =
      some ⟨['1'], [grpCloze, seqCloze], false⟩ := by
  have h := C4_sequence_detection_amended [grpCloze, seqCloze] ['1']
    (by decide) (by decide) grpCloze (by decide)
  simpa using h

theorem seqReplacement_eq_table (sorted : List ClozeMatch) (i : Nat) (hi : i < sorted.length)
    (hnodup : sorted.Nodup) (cloze : ClozeMatch) :
    seqReplacement sorted i (sorted.get ⟨i, hi⟩) cloze = maskTableSpec sorted i cloze := by
  by_cases hmem : cloze ∈ sorted
  · have hidx : sorted.indexOf cloze < sorted.length := List.indexOf_lt_length.mpr hmem
    have hget : sorted.get ⟨sorted.indexOf cloze, hidx⟩ = cloze := List.indexOf_get _
    by_cases heq : sorted.indexOf cloze = i
    · have hc : cloze = sorted.get ⟨i, hi⟩ := by
        subst heq
        exact hget.symm
      unfold seqReplacement maskTableSpec
      rw [if_pos hc, if_pos hmem, if_pos heq]
    · have hne : cloze ≠ sorted.get ⟨i, hi⟩ := by
        intro hc
        apply heq
        have hgg : sorted.get ⟨sorted.indexOf cloze, hidx⟩ = sorted.get ⟨i, hi⟩ := by
          rw [hget, hc]
        exact congrArg Fin.val ((hnodup.get_inj_iff).mp hgg)
      by_cases hlt : sorted.indexOf cloze < i
      · have htake : cloze ∈ sorted.take i := by
          have hlt2 : sorted.indexOf cloze < (sorted.take i).length := by simp; omega
          have h2 : (sorted.take i).get ⟨sorted.indexOf cloze, hlt2⟩ =
              sorted.get ⟨sorted.indexOf cloze, hidx⟩ := by
            rw [List.get_eq_getElem, List.get_eq_getElem, List.getElem_take]
          exact (h2.trans hget) ▸ List.get_mem _ _ _
        unfold seqReplacement maskTableSpec
        rw [if_neg hne, if_pos htake, if_pos hmem, if_neg heq, if_pos hlt]
      · have hnottake : cloze ∉ sorted.take i := by
          intro htk
          obtain ⟨⟨j, hj⟩, hjget⟩ := List.mem_iff_get.mp htk
          have hjlen : j < sorted.length := by
            have := hj; simp at this; omega
          have hjlt : j < i := by
            have := hj; simp at this; omega
          have hjg : sorted.get ⟨j, hjlen⟩ = cloze := by
            rw [← hjget, List.get_eq_getElem, List.get_eq_getElem, List.getElem_take]
          have h3 : sorted.get ⟨j, hjlen⟩ = sorted.get ⟨sorted.indexOf cloze, hidx⟩ := by
            rw [hjg, hget]
          have h4 : j = sorted.indexOf cloze :=
            congrArg Fin.val ((hnodup.get_inj_iff).mp h3)
          omega
        have hdrop : cloze ∈ sorted.drop (i + 1) := by
          have hm : sorted.indexOf cloze - (i + 1) < (sorted.drop (i + 1)).length := by
            simp; omega
          have h2 : (sorted.drop (i + 1)).get ⟨sorted.indexOf cloze - (i + 1), hm⟩ =
              sorted.get ⟨(i + 1) + (sorted.indexOf cloze - (i + 1)), by omega⟩ := by
            rw [List.get_eq_getElem, List.get_eq_getElem, List.getElem_drop]
          have h3 : sorted.get ⟨(i + 1) + (sorted.indexOf cloze - (i + 1)), by omega⟩ =
              sorted.get ⟨sorted.indexOf cloze, hidx⟩ := by
            have harith : (i + 1) + (sorted.indexOf cloze - (i + 1)) =
                sorted.indexOf cloze := by omega
            simp only [List.get_eq_getElem]
            congr 1
          exact ((h2.trans h3).trans hget) ▸ List.get_mem _ _ _
        unfold seqReplacement maskTableSpec
        rw [if_neg hne, if_neg hnottake, if_pos hdrop, if_pos hmem, if_neg heq, if_neg hlt]
  · have hne : cloze ≠ sorted.get ⟨i, hi⟩ := by
      intro hc
      exact hmem (by rw [hc]; exact List.get_mem _ _ _)
    have h1 : cloze ∉ sorted.take i := fun htk => hmem (List.take_subset _ _ htk)
    have h2 : cloze ∉ sorted.drop (i + 1) := fun hdk => hmem (List.drop_subset _ _ hdk)
    unfold seqReplacement maskTableSpec
    rw [if_neg hne, if_neg h1, if_neg h2, if_neg hmem]

theorem foldl_fn_congr {α β : Type} (f g : β → α → β) (init : β) (l : List α)
    (h : ∀ b, ∀ a ∈ l, f b a = g b a) : l.foldl f init = l.foldl g init := by
  induction l generalizing init with
  | nil => rfl
  | cons x xs ih =>
    simp only [List.foldl_cons]
    rw [h init x (List.mem_cons_self _ _)]
    exact ih _ (fun b a ha => h b a (List.mem_cons_of_mem _ ha))

/-- **C3.** Sequence prompt masking: for a sequence group whose (sorted)
member list has no duplicate records, the generator emits exactly one
prompt per member, the members are in ascending sequence order
(`sequence_order or 0`, as a stable permutation of the group), and the
`i`-th prompt carries member `i` as its cloze (with its `anki_id` and
`line_number`), carries no `group_clozes`, and its context is the
reverse-`byte_start` splice of the spec's masking table: target →
`__CLOZE__`, earlier member → answer, later member → `"..."`, other
groups → answer. -/
theorem C3_sequence_prompt_masking (g : ClozeGroup) (ctx : CardContext) (fp : PyStr)
    (hseq : g.is_sequence = true) (hnodup : g.get_sequence_clozes.Nodup) :
    (_generate_sequence_prompts g ctx fp).length = g.get_sequence_clozes.length ∧
    g.get_sequence_clozes.Perm g.clozes ∧
    List.Sorted (fun a b => seqKey a ≤ seqKey b) g.get_sequence_clozes ∧
    ∀ i (hi : i < g.get_sequence_clozes.length),
      (_generate_sequence_prompts g ctx fp)[i]? = some
        { cloze_match := g.get_sequence_clozes.get ⟨i, hi⟩
          context := maskedContextSpec ctx g.get_sequence_clozes i
          anki_id := (g.get_sequence_clozes.get ⟨i, hi⟩).anki_id
          file_path := fp
          line_number := (g.get_sequence_clozes.get ⟨i, hi⟩).line_number
          group_clozes := none } := by
  have hsorted_eq : g.get_sequence_clozes =
      List.insertionSort (fun a b => seqKey a ≤ seqKey b) g.clozes := by
    simp [ClozeGroup.get_sequence_clozes, hseq]
  refine ⟨by simp [_generate_sequence_prompts], ?_, ?_, ?_⟩
  · rw [hsorted_eq]
    exact List.perm_insertionSort _ _
  · rw [hsorted_eq]
    exact List.sorted_insertionSort _ _
  · intro i hi
    have hienum : i < g.get_sequence_clozes.enum.length := by simpa using hi
    unfold _generate_sequence_prompts
    rw [List.getElem?_map, List.getElem?_eq_getElem hienum, List.getElem_enum]
    simp only [Option.map_some']
    congr 1
    have hctx : seqContextFor ctx g.get_sequence_clozes i g.get_sequence_clozes[i] =
        maskedContextSpec ctx g.get_sequence_clozes i := by
      unfold seqContextFor maskedContextSpec
      apply foldl_fn_congr
      intro text cloze _
      congr 1
      exact seqReplacement_eq_table g.get_sequence_clozes i hi hnodup cloze
    simp only [List.get_eq_getElem]
    rw [hctx]

/-- Witness for C3: the masking theorem applied to the three-step demo
sequence, at the middle member. -/
theorem C3_sequence_prompt_masking_witness :
    (_generate_sequence_prompts seqDemoGroup seqDemoCtx [])[1]? = some
      { cloze_match := seqDemoGroup.get_sequence_clozes.get ⟨1, by decide⟩
        context := maskedContextSpec seqDemoCtx seqDemoGroup.get_sequence_clozes 1
        anki_id := (seqDemoGroup.get_sequence_clozes.get ⟨1, by decide⟩).anki_id
        file_path := []
        line_number := (seqDemoGroup.get_sequence_clozes.get ⟨1, by decide⟩).line_number
        group_clozes := none } :=
  (C3_sequence_prompt_masking seqDemoGroup seqDemoCtx [] rfl (by decide)).2.2.2 1 (by decide)

/-! ### C5: rewrite preservation -/

theorem firstOccAux_some_iff (old : PyStr) : ∀ (s : PyStr) (i p : Nat),
    firstOccAux old s i = some p ↔
      ∃ k, p = i + k ∧ old.isPrefixOf (s.drop k) = true ∧
        ∀ q < k, ¬ (old.isPrefixOf (s.drop q) = true) := by
  intro s
  induction s with
  | nil =>
    intro i p
    simp only [firstOccAux]
    by_cases h : old.isEmpty
    · have hold : old = [] := by simpa using h
      subst hold
      rw [if_pos h]
      constructor
      · intro he
        injection he with he
        exact ⟨0, by omega, by simp, by omega⟩
      · rintro ⟨k, rfl, -, hmin⟩
        cases k with
        | zero => rfl
        | succ k' => exact absurd (by simp) (hmin 0 (Nat.succ_pos _))
    · have hold : old ≠ [] := by simpa using h
      rw [if_neg (by simpa using hold)]
      constructor
      · intro he; exact absurd he (by simp)
      · rintro ⟨k, rfl, hk, -⟩
        rw [List.drop_nil] at hk
        rw [List.isPrefixOf_iff_prefix] at hk
        exact absurd (List.prefix_nil.mp hk) hold
  | cons c rest ih =>
    intro i p
    simp only [firstOccAux]
    by_cases h : old.isPrefixOf (c :: rest) = true
    · rw [if_pos h]
      constructor
      · intro he
        injection he with he
        exact ⟨0, by omega, by simpa using h, by omega⟩
      · rintro ⟨k, rfl, hk, hmin⟩
        cases k with
        | zero => rfl
        | succ k' => exact absurd (by simpa using h) (hmin 0 (Nat.succ_pos _))
    · rw [if_neg h, ih]
      constructor
      · rintro ⟨k, rfl, hk, hmin⟩
        refine ⟨k + 1, by omega, by simpa using hk, ?_⟩
        intro q hq
        cases q with
        | zero => simpa using h
        | succ q' => simpa using hmin q' (by omega)
      · rintro ⟨k, rfl, hk, hmin⟩
        cases k with
        | zero => exact absurd (by simpa using hk) h
        | succ k' =>
          refine ⟨k', by omega, by simpa using hk, ?_⟩
          intro q hq
          simpa using hmin (q + 1) (by omega)

theorem firstOccIdx_some_iff (old s : PyStr) (p : Nat) :
    firstOccIdx old s = some p ↔
      old.isPrefixOf (s.drop p) = true ∧
        ∀ q < p, ¬ (old.isPrefixOf (s.drop q) = true) := by
  unfold firstOccIdx
  rw [firstOccAux_some_iff]
  constructor
  · rintro ⟨k, rfl, hk, hmin⟩
    refine ⟨by simpa using hk, fun q hq => hmin q (by omega)⟩
  · rintro ⟨hp, hmin⟩
    exact ⟨p, by omega, hp, hmin⟩

theorem firstOccIdx_bound (old s : PyStr) (p : Nat)
    (h : firstOccIdx old s = some p) (hne : old ≠ []) :
    p + old.length ≤ s.length := by
  rw [firstOccIdx_some_iff] at h
  have hpre := (List.isPrefixOf_iff_prefix).mp h.1
  have hlen := hpre.length_le
  rw [List.length_drop] at hlen
  have hp : p ≤ s.length := by
    by_contra hgt
    push_neg at hgt
    rw [List.drop_eq_nil_of_le (by omega)] at hpre
    exact hne (List.prefix_nil.mp hpre)
  omega

theorem prefixAt_transfer (sub s t : PyStr) (m q : Nat)
    (hagree : s.take m = t.take m) (hbound : q + sub.length ≤ m) :
    sub.isPrefixOf (s.drop q) = sub.isPrefixOf (t.drop q) := by
  have key : ∀ u : PyStr, u.take m = t.take m →
      (u.drop q).take sub.length = (t.drop q).take sub.length := by
    intro u hu
    rw [List.take_drop, List.take_drop]
    have h1 : u.take (q + sub.length) = (u.take m).take (q + sub.length) := by
      rw [List.take_take, Nat.min_eq_left hbound]
    have h2 : t.take (q + sub.length) = (t.take m).take (q + sub.length) := by
      rw [List.take_take, Nat.min_eq_left hbound]
    rw [h1, h2, hu]
  have hst := key s hagree
  cases hsp : sub.isPrefixOf (s.drop q) <;> cases htp : sub.isPrefixOf (t.drop q)
  · rfl
  · exfalso
    rw [List.isPrefixOf_iff_prefix, List.prefix_iff_eq_take] at htp
    have hs2 : sub.isPrefixOf (s.drop q) = true := by
      rw [List.isPrefixOf_iff_prefix, List.prefix_iff_eq_take, hst]
      exact htp
    rw [hsp] at hs2
    exact Bool.noConfusion hs2
  · exfalso
    rw [List.isPrefixOf_iff_prefix, List.prefix_iff_eq_take] at hsp
    have ht2 : sub.isPrefixOf (t.drop q) = true := by
      rw [List.isPrefixOf_iff_prefix, List.prefix_iff_eq_take, ← hst]
      exact hsp
    rw [htp] at ht2
    exact Bool.noConfusion ht2
  · rfl

theorem firstOcc_transfer (sub s t : PyStr) (m p : Nat)
    (hagree : s.take m = t.take m) (hbound : p + sub.length ≤ m)
    (h : firstOccIdx sub t = some p) : firstOccIdx sub s = some p := by
  rw [firstOccIdx_some_iff] at h ⊢
  refine ⟨?_, ?_⟩
  · rw [prefixAt_transfer sub s t m p hagree hbound]
    exact h.1
  · intro q hq
    rw [prefixAt_transfer sub s t m q hagree (by omega)]
    exact h.2 q hq

theorem chain_desc_bound (u : Nat × PyStr × PyStr) (rest : List (Nat × PyStr × PyStr))
    (h : List.Chain' (fun a b => b.1 + b.2.1.length ≤ a.1) (u :: rest)) :
    ∀ v ∈ rest, v.1 + v.2.1.length ≤ u.1 := by
  induction rest generalizing u with
  | nil => intro v hv; simp at hv
  | cons w ws ih =>
    rw [List.chain'_cons] at h
    intro v hv
    rcases List.mem_cons.mp hv with rfl | hv'
    · exact h.1
    · have := ih w h.2 v hv'
      omega

theorem foldl_replaceFirst_splice :
    ∀ (updates : List (Nat × PyStr × PyStr)) (content : PyStr),
      (∀ u ∈ updates, firstOccIdx u.2.1 content = some u.1 ∧ u.2.1 ≠ []) →
      List.Chain' (fun a b => b.1 + b.2.1.length ≤ a.1) updates →
      updates.foldl (fun acc u => replaceFirst acc u.2.1 u.2.2) content =
        updates.foldl (fun acc u => spliceAt acc u.1 (u.1 + u.2.1.length) u.2.2) content := by
  intro updates
  induction updates with
  | nil => intro content _ _; rfl
  | cons u rest ih =>
    intro content hocc hchain
    obtain ⟨hu, hune⟩ := hocc u (List.mem_cons_self _ _)
    have hstep : replaceFirst content u.2.1 u.2.2 =
        spliceAt content u.1 (u.1 + u.2.1.length) u.2.2 := by
      unfold replaceFirst spliceAt
      rw [hu]
    simp only [List.foldl_cons, hstep]
    have hbound0 : u.1 + u.2.1.length ≤ content.length := firstOccIdx_bound _ _ _ hu hune
    have hagree : (spliceAt content u.1 (u.1 + u.2.1.length) u.2.2).take u.1 =
        content.take u.1 := by
      unfold spliceAt
      rw [List.take_append_of_le_length (by simp; omega),
        List.take_append_of_le_length (by simp; omega), List.take_take, Nat.min_self]
    apply ih
    · intro v hv
      obtain ⟨hvocc, hvne⟩ := hocc v (List.mem_cons_of_mem _ hv)
      exact ⟨firstOcc_transfer _ _ _ u.1 v.1 hagree (chain_desc_bound u rest hchain v hv)
        hvocc, hvne⟩
    · exact hchain.tail

/-- **C5, counterexample.** One cloze needs a code, so the claim predicts
that exactly its substring `[12, 17)` changes and every byte before it is
untouched.  But `str.replace(old, new, 1)` rewrites the *first* occurrence
of the cloze text, which here lies inside the other cloze: bytes before
position 12 change, and the result is not the predicted single-range
splice. -/
theorem C5_rewrite_preservation_counterexample :
    (write_ids_content demo5content [demo5prompt]).take 12 ≠ demo5content.take 12 ∧
    write_ids_content demo5content [demo5prompt] ≠
      spliceAt demo5content 12 17 "\x7b\x7bb>a\x7d\x7d".toList :=
  ⟨by decide, by decide⟩

/-- **C5, amended.** If no cloze needs a new code the content is unchanged
(the file is not even rewritten).  If `k` clozes need codes, each update
replaces the first occurrence of the cloze's text in the evolving content;
when every update's text first occurs in the content at that cloze's own
recorded position and the updated ranges are disjoint (descending after the
sort), the result is exactly the splice of the `k` recorded ranges — those
`k` substrings change and no byte outside them differs. -/
theorem C5_rewrite_preservation_amended :
    (∀ (content : PyStr) (prompts : List Prompt),
      (∀ p ∈ prompts, ∀ c ∈ clozesToUpdate p, clozeUpdate c = none) →
      write_ids_content content prompts = content) ∧
    (∀ (content : PyStr) (prompts : List Prompt),
      (∀ u ∈ sortUpdatesDesc (buildUpdates prompts),
        firstOccIdx u.2.1 content = some u.1 ∧ u.2.1 ≠ []) →
      List.Chain' (fun a b => b.1 + b.2.1.length ≤ a.1)
        (sortUpdatesDesc (buildUpdates prompts)) →
      write_ids_content content prompts =
        (sortUpdatesDesc (buildUpdates prompts)).foldl
          (fun acc u => spliceAt acc u.1 (u.1 + u.2.1.length) u.2.2) content) := by
  constructor
  · intro content prompts h
    have hnil : buildUpdates prompts = [] := by
      unfold buildUpdates
      rw [List.filterMap_eq_nil_iff]
      intro c hc
      obtain ⟨p, hp, hcp⟩ := List.mem_flatMap.mp hc
      exact h p hp c hcp
    unfold write_ids_content
    rw [hnil]
    rfl
  · intro content prompts hocc hchain
    unfold write_ids_content
    by_cases hnil : buildUpdates prompts = []
    · rw [hnil]
      simp [sortUpdatesDesc, List.insertionSort]
    · rw [if_neg hnil]
      exact foldl_replaceFirst_splice _ content hocc hchain

/-- Witness for C5 (amended), on two disjoint clozes whose texts first
occur at their own positions. -/
theorem C5_rewrite_preservation_amended_witness :
    write_ids_content w5content [w5prompt1, w5prompt2] =
      (sortUpdatesDesc (buildUpdates [w5prompt1, w5prompt2])).foldl
        (fun acc u => spliceAt acc u.1 (u.1 + u.2.1.length) u.2.2) w5content :=
  C5_rewrite_preservation_amended.2 w5content [w5prompt1, w5prompt2]
    (by decide)
    (by
      rw [show sortUpdatesDesc (buildUpdates [w5prompt1, w5prompt2]) =
        [(6, "\x7b\x7bc\x7d\x7d".toList, "\x7b\x7bd>c\x7d\x7d".toList),
         (0, "\x7b\x7ba\x7d\x7d".toList, "\x7b\x7bb>a\x7d\x7d".toList)] from by decide]
      exact List.chain'_cons.mpr ⟨by decide, List.chain'_singleton _⟩)

/-- **C8, counterexample.** The claim says the front-matter fix-up precedes
every remote call; but in the concrete trace the very first operation is
the note-type ensure — a remote call — and the fix-up comes second. -/
theorem C8_operation_order_counterexample :
    ¬ (∀ (i j : Nat) (e f : SyncEvent),
        (sync_file_trace demo8oracle false [demo8prompt])[i]? = some e →
        (sync_file_trace demo8oracle false [demo8prompt])[j]? = some f →
        e = SyncEvent.ensureFileId → f.isRemote = true → i < j) := by
  intro h
  have := h 1 0 SyncEvent.ensureFileId SyncEvent.ensureNoteType
    (by decide) (by decide) rfl (by decide)
  omega

theorem syncPromptStep_perNote (oracle : RemoteOracle) (p : Prompt) (cc : Nat)
    (seen : List Nat) :
    ∀ e ∈ (syncPromptStep oracle p cc seen).1, e.isPerNote = true := by
  intro e he
  unfold syncPromptStep at he
  split at he
  · split at he
    · simp only [List.mem_cons, List.not_mem_nil, or_false] at he
      rcases he with rfl | rfl | rfl <;> rfl
    · simp only [List.mem_cons, List.not_mem_nil, or_false] at he
      rcases he with rfl | rfl <;> rfl
  · simp only [List.mem_cons, List.not_mem_nil, or_false] at he
    rcases he with rfl
    rfl

theorem syncPromptLoop_perNote (oracle : RemoteOracle) :
    ∀ (prompts : List Prompt) (cc : Nat) (seen : List Nat),
      ∀ e ∈ (syncPromptLoop oracle prompts cc seen).1, e.isPerNote = true := by
  intro prompts
  induction prompts with
  | nil => intro cc seen e he; simp [syncPromptLoop] at he
  | cons p rest ih =>
    intro cc seen e he
    simp only [syncPromptLoop, List.mem_append] at he
    rcases he with he | he
    · exact syncPromptStep_perNote oracle p cc seen e he
    · exact ih _ _ e he

/-- **C8, amended.** For every oracle and non-empty prompt list (contexts
present), the trace of `sync_file` decomposes as: note-type ensure first,
then the front-matter fix-up, then the source read, then the per-note
operations of the prompts, then the orphan sweep (`find_notes`, and
`delete_notes` only after it), and the source rewrite strictly last. -/
theorem C8_operation_order_amended (oracle : RemoteOracle) (prompts : List Prompt)
    (hne : prompts ≠ []) :
    ∃ P D, (∀ e ∈ P, SyncEvent.isPerNote e = true) ∧
      (D = [] ∨ D = [SyncEvent.deleteNotes]) ∧
      sync_file_trace oracle false prompts =
        [SyncEvent.ensureNoteType, SyncEvent.ensureFileId, SyncEvent.readFile] ++
          P ++ [SyncEvent.findNotes] ++ D ++ [SyncEvent.writeIds] := by
  refine ⟨(syncPromptLoop oracle prompts 0 []).1,
    (if oracle.findOk ∧
        oracle.fileNoteIds.filter
          (fun nid => ¬ (nid ∈ (syncPromptLoop oracle prompts 0 []).2)) ≠ []
      then [SyncEvent.deleteNotes] else []), ?_, ?_, ?_⟩
  · exact syncPromptLoop_perNote oracle prompts 0 []
  · split
    · right; rfl
    · left; rfl
  · unfold sync_file_trace
    rw [if_neg (by simp), if_neg hne]
    simp [List.append_assoc]

/-- Witness for C8 (amended): the decomposition at the concrete oracle and
prompt. -/
theorem C8_operation_order_amended_witness :
    ∃ P D, (∀ e ∈ P, SyncEvent.isPerNote e = true) ∧
      (D = [] ∨ D = [SyncEvent.deleteNotes]) ∧
      sync_file_trace demo8oracle false [demo8prompt] =
        [SyncEvent.ensureNoteType, SyncEvent.ensureFileId, SyncEvent.readFile] ++
          P ++ [SyncEvent.findNotes] ++ D ++ [SyncEvent.writeIds] :=
  C8_operation_order_amended demo8oracle [demo8prompt] (by decide)

/-! ### C9: source-link construction -/

theorem pyReplaceAll_single_char (d : Char) (r : PyStr) :
    ∀ (s : PyStr) (fuel : Nat), s.length ≤ fuel →
      replaceAllGo [d] r fuel s = s.flatMap (fun c => if c = d then r else [c]) := by
  intro s
  induction s with
  | nil => intro fuel _; cases fuel <;> rfl
  | cons c rest ih =>
    intro fuel hfuel
    match fuel with
    | f + 1 =>
      have hrest : rest.length ≤ f := by
        simp at hfuel; omega
      by_cases hc : c = d
      · subst hc
        have hstep : replaceAllGo [c] r (f + 1) (c :: rest) =
            r ++ replaceAllGo [c] r f rest := by
          simp [replaceAllGo, List.isPrefixOf]
        rw [hstep, ih f hrest]
        simp
      · have hstep : replaceAllGo [d] r (f + 1) (c :: rest) =
            c :: replaceAllGo [d] r f rest := by
          simp [replaceAllGo, List.isPrefixOf, Ne.symm hc]
        rw [hstep, ih f hrest]
        simp [hc]

theorem pyReplaceAll_char_eq_flatMap (s : PyStr) (d : Char) (r : PyStr) :
    pyReplaceAll s [d] r = s.flatMap (fun c => if c = d then r else [c]) :=
  pyReplaceAll_single_char d r s s.length (le_refl _)

theorem pyHtmlEscape_eq_htmlEscape (s : PyStr) : pyHtmlEscape s = htmlEscape s := by
  unfold pyHtmlEscape
  rw [pyReplaceAll_char_eq_flatMap, pyReplaceAll_char_eq_flatMap,
    pyReplaceAll_char_eq_flatMap, pyReplaceAll_char_eq_flatMap,
    pyReplaceAll_char_eq_flatMap]
  induction s with
  | nil => rfl
  | cons c rest ih =>
    simp only [List.flatMap_cons, List.flatMap_append, htmlEscape] at ih ⊢
    rw [ih]
    congr 1
    by_cases h1 : c = '&'
    · subst h1; rfl
    · by_cases h2 : c = '<'
      · subst h2; rfl
      · by_cases h3 : c = '>'
        · subst h3; rfl
        · by_cases h4 : c = '"'
          · subst h4; rfl
          · by_cases h5 : c = '\''
            · subst h5; rfl
            · simp only [htmlEscapeChar, if_neg h1, if_neg h2, if_neg h3, if_neg h4,
                if_neg h5, List.flatMap_cons, List.flatMap_nil, List.append_nil]

/-- **C9, counterexample.** A cloze whose stored (0-based) `line_number` is
3 should, per the claim, produce a URL carrying the 1-based line 4; the
code inserts the stored number unchanged, producing `...:3:1`. -/
theorem C9_source_link_counterexample :
    build_source_link EditorProtocol.vscode "/t.md".toList 3 ≠
      "<a href=\"vscode://file/t.md:4:1\">Open in VS Code</a>".toList ∧
    build_source_link EditorProtocol.vscode "/t.md".toList 3 =
      "<a href=\"vscode://file/t.md:3:1\">Open in VS Code</a>".toList :=
  ⟨by decide, by decide⟩

/-- **C9, amended.** For every synced prompt the `Source` field is an HTML
anchor instantiating the configured protocol template with the file's
absolute path and the prompt's *stored* line number (the cloze's 0-based
index, inserted as-is, not converted to 1-based), with URL and visible text
both HTML-escaped — where the escaping function provably equals CPython's
sequential-replace `html.escape`. -/
theorem C9_source_link_amended :
    (∀ (proto : EditorProtocol) (p : Prompt),
      note_source_field proto p =
        "<a href=\"".toList ++ htmlEscape (editorURL proto p.file_path (p.line_number : Int))
          ++ "\">".toList ++ htmlEscape (editorText proto) ++ "</a>".toList) ∧
    (∀ s : PyStr, pyHtmlEscape s = htmlEscape s) :=
  ⟨fun _ _ => rfl, pyHtmlEscape_eq_htmlEscape⟩

end Mnmd

